import Mathlib

/-!
Verification development for the GraceQ/MPS2 two-site DMRG core.

Shallow embedding of the data model and the operations of:
  - src/include/gqmps2/detail/mpogen/coef_op_alg.h   (coefficient-representation algebra)
  - src/include/gqmps2/one_dim_tn/mps/mps.h          (MPS container, canonicalization)
  - src/include/gqmps2/algorithm/lanczos_dmrg_solver_impl.h
      (Lanczos solver, effective-Hamiltonian assembly, two-site update, sweeps)

Tensor primitives (Contract, SVD, Dag, LinearCombine, Normalize, Div) and the
tridiagonal solver are external collaborators of the repository; they are
embedded as abstract operation records, so every theorem below quantifies over
their behaviour unless stated otherwise.
-/

namespace GqMps2

/-! ### Coefficient representation algebra (coef_op_alg.h) -/

/-- `CoefLabel` is a C++ `long` label; embedded as `Int`. -/
abbrev CoefLabel := Int

/-- Embedding of the helper `ElemInVec` (coef_op_alg.h, lines 504-514): scans `v`
from the front and returns the position of the first element equal to `e`,
or `none` when `e` does not occur. -/
def elemInVec (e : CoefLabel) : List CoefLabel → Option Nat
  | [] => none
  | x :: xs => if e = x then some 0 else (elemInVec e xs).map (fun p => p + 1)

/-- Loop body of `CoefRepr::operator==` (coef_op_alg.h, lines 63-79): each label of
the left list is located in (a shrinking copy of) the right list and erased;
afterwards the copy must be empty. -/
def coefReprEqLoop : List CoefLabel → List CoefLabel → Bool
  | [], rhs => rhs.isEmpty
  | l :: ls, rhs =>
    match elemInVec l rhs with
    | none => false
    | some pos => coefReprEqLoop ls (rhs.eraseIdx pos)

/-- Embedding of `CoefRepr::operator==`: the label lists must have equal length and
be equal as multisets. -/
def coefReprEq (lhs rhs : List CoefLabel) : Bool :=
  if lhs.length ≠ rhs.length then false else coefReprEqLoop lhs rhs

/-- Embedding of `CoefRepr::operator+` (coef_op_alg.h, lines 85-87): label-list
concatenation via `ConcatenateTwoVec`. -/
def coefReprAdd (lhs rhs : List CoefLabel) : List CoefLabel := lhs ++ rhs

theorem elemInVec_eq_none {e : CoefLabel} :
    ∀ {v : List CoefLabel}, elemInVec e v = none → e ∉ v := by
  intro v
  induction v with
  | nil => simp
  | cons x xs ih =>
    intro h
    simp only [elemInVec] at h
    split at h
    · simp at h
    · rename_i hne
      simp only [Option.map_eq_none'] at h
      simp only [List.mem_cons, not_or]
      exact ⟨hne, ih h⟩

theorem elemInVec_some_eraseIdx {e : CoefLabel} :
    ∀ {v : List CoefLabel} {p : Nat}, elemInVec e v = some p →
      v.eraseIdx p = v.erase e ∧ e ∈ v := by
  intro v
  induction v with
  | nil => intro p h; simp [elemInVec] at h
  | cons x xs ih =>
    intro p h
    simp only [elemInVec] at h
    split at h
    · rename_i heq
      cases h
      subst heq
      simp [List.eraseIdx, List.erase_cons_head]
    · rename_i hne
      match hp : elemInVec e xs with
      | none => rw [hp] at h; simp at h
      | some q =>
        rw [hp] at h
        simp only [Option.map_some'] at h
        cases h
        obtain ⟨h1, h2⟩ := ih hp
        refine ⟨?_, List.mem_cons_of_mem _ h2⟩
        have hx : (x == e) = false := by
          simp only [beq_eq_false_iff_ne, ne_eq]
          intro hxe; exact hne hxe.symm
        simp [List.eraseIdx, List.erase_cons, hx, h1]

theorem coefReprEqLoop_of_perm :
    ∀ {ls rhs : List CoefLabel}, ls.Perm rhs → coefReprEqLoop ls rhs = true := by
  intro ls
  induction ls with
  | nil =>
    intro rhs h
    have := h.symm.eq_nil
    subst this
    rfl
  | cons l ls ih =>
    intro rhs h
    have hmem : l ∈ rhs := h.mem_iff.mp (List.mem_cons_self l ls)
    match hp : elemInVec l rhs with
    | none => exact absurd hmem (elemInVec_eq_none hp)
    | some pos =>
      obtain ⟨herase, -⟩ := elemInVec_some_eraseIdx hp
      have hperm : ls.Perm (rhs.erase l) := by
        have h2 : (l :: ls).Perm (l :: rhs.erase l) :=
          h.trans (List.perm_cons_erase hmem)
        exact h2.cons_inv
      simp only [coefReprEqLoop, hp, herase]
      exact ih hperm

/-- Claim C10: `CoefRepr` addition is commutative under `CoefRepr` equality:
`(a + b) == (b + a)` holds for all coefficient representations, because `+`
concatenates the label lists and `==` compares them as multisets. -/
theorem claim_C10_coef_add_comm (a b : List CoefLabel) :
    coefReprEq (coefReprAdd a b) (coefReprAdd b a) = true := by
  unfold coefReprEq coefReprAdd
  rw [if_neg]
  · exact coefReprEqLoop_of_perm (List.perm_append_comm)
  · simp [Nat.add_comm]

/-! ### MPS container metadata (mps.h) -/

/-- Canonical type of an MPS local tensor (mps.h, lines 43-47). -/
inductive MPSTenCanoType where
  | NONE
  | LEFT
  | RIGHT
deriving DecidableEq

/-- The uncentralized sentinel `kUncentralizedCenterIdx = -1` (mps.h, line 39). -/
def kUncentralizedCenterIdx : Int := -1

/-- State of an `MPS<TenElemT, QNT>` object: the site tensors, the tracked center
and the per-site canonical types. The tensor type `T` is abstract. -/
structure MPSState (T : Type) where
  tens : List T
  center : Int
  canoTypes : List MPSTenCanoType

/-- Metadata effect of the non-const `MPS::operator[]` / `MPS::operator()`
(mps.h, lines 85-89 and 106-110): the canonical type of the accessed position is
set to `NONE` and the center is reset to the uncentralized sentinel. The access
itself modifies no site tensor. -/
def mutAccess {T : Type} (idx : Nat) (s : MPSState T) : MPSState T :=
  ⟨s.tens, kUncentralizedCenterIdx, s.canoTypes.set idx MPSTenCanoType.NONE⟩

/-- Effect of the const `MPS::operator[]` / `MPS::operator()` (mps.h, lines
96-98 and 117-119): no metadata and no tensor is changed. -/
def constAccess {T : Type} (_idx : Nat) (s : MPSState T) : MPSState T := s

/-- Claim C7: a non-const element access sets the canonical type of the accessed
position to `NONE` and resets the center to the uncentralized sentinel, leaving
every other canonical type and all site tensors unchanged; a const access
changes nothing. -/
theorem claim_C7_element_access {T : Type} (s : MPSState T) (idx : Nat) :
    (mutAccess idx s).tens = s.tens ∧
    (mutAccess idx s).center = kUncentralizedCenterIdx ∧
    (idx < s.canoTypes.length →
      (mutAccess idx s).canoTypes[idx]? = some MPSTenCanoType.NONE) ∧
    (∀ j, j ≠ idx → (mutAccess idx s).canoTypes[j]? = s.canoTypes[j]?) ∧
    constAccess idx s = s := by
  refine ⟨rfl, rfl, ?_, ?_, rfl⟩
  · intro h
    simp [mutAccess, List.getElem?_set_self, h]
  · intro j hj
    simp [mutAccess, List.getElem?_set_ne (fun h => hj h.symm)]

theorem claim_C7_witness :
    ((1 : Nat) < (⟨[0, 1, 2], 1, [MPSTenCanoType.LEFT, MPSTenCanoType.LEFT,
        MPSTenCanoType.RIGHT]⟩ : MPSState Nat).canoTypes.length →
      (mutAccess 1 (⟨[0, 1, 2], 1, [MPSTenCanoType.LEFT, MPSTenCanoType.LEFT,
        MPSTenCanoType.RIGHT]⟩ : MPSState Nat)).canoTypes[1]? =
        some MPSTenCanoType.NONE) ∧
    (∀ j, j ≠ 1 →
      (mutAccess 1 (⟨[0, 1, 2], 1, [MPSTenCanoType.LEFT, MPSTenCanoType.LEFT,
        MPSTenCanoType.RIGHT]⟩ : MPSState Nat)).canoTypes[j]? =
      (⟨[0, 1, 2], 1, [MPSTenCanoType.LEFT, MPSTenCanoType.LEFT,
        MPSTenCanoType.RIGHT]⟩ : MPSState Nat).canoTypes[j]?) :=
  ⟨(claim_C7_element_access _ 1).2.2.1,
   (claim_C7_element_access _ 1).2.2.2.1⟩

/-! ### Effective-Hamiltonian assembler (lanczos_dmrg_solver_impl.h, lines 460-476) -/

/-- Matrix-represented MPO site: a sparse `rows × cols` grid of operator tensors.
`elems i j = none` models `IsNull(i, j) = true` (`SparMat` with `indexes = -1`). -/
structure SparMatM (T : Type) where
  rows : Nat
  cols : Nat
  elems : Nat → Nat → Option T

/-- The null predicate `SparMat::IsNull`. -/
def SparMatM.isNull {T : Type} (m : SparMatM T) (i j : Nat) : Bool :=
  (m.elems i j).isNone

/-- Entry access `SparMat::operator()` on a non-null entry. -/
def SparMatM.at {T : Type} [Inhabited T] (m : SparMatM T) (i j : Nat) : T :=
  (m.elems i j).getD default

/-- One effective-Hamiltonian term
`(L[l][i], W[l](i,j), W[r](j,k), R[N-1-r][k])`. -/
def effHamTerm {T : Type} [Inhabited T] (lopg : List T) (wl wr : SparMatM T)
    (ropg : List T) (i j k : Nat) : T × T × T × T :=
  (lopg.getD i default, wl.at i j, wr.at j k, ropg.getD k default)

/-- Embedding of `DMRGExecutor::SetEffectiveHamiltonianTerms_`
(lanczos_dmrg_solver_impl.h, lines 460-476): three nested loops over
`i < lopg.size()`, `j < W[l].cols`, `k < W[r].cols`; a term is pushed back
whenever both `W[l](i,j)` and `W[r](j,k)` are non-null. -/
def setEffectiveHamiltonianTerms {T : Type} [Inhabited T]
    (lopg : List T) (wl wr : SparMatM T) (ropg : List T) : List (T × T × T × T) :=
  (List.range lopg.length).foldl (fun acc i =>
    (List.range wl.cols).foldl (fun acc j =>
      (List.range wr.cols).foldl (fun acc k =>
        if !wl.isNull i j && !wr.isNull j k then
          acc ++ [effHamTerm lopg wl wr ropg i j k]
        else acc) acc) acc) []

/-- All index triples `(i, j, k)` with `i < di`, `j < dj`, `k < dk` in
lexicographic order. -/
def lexTriples (di dj dk : Nat) : List (Nat × Nat × Nat) :=
  (List.range di).flatMap fun i =>
    (List.range dj).flatMap fun j =>
      (List.range dk).map fun k => (i, j, k)

theorem foldl_append_singleton {α β : Type} (g : α → List β) :
    ∀ (l : List α) (init : List β),
      l.foldl (fun acc x => acc ++ g x) init = init ++ l.flatMap g := by
  intro l
  induction l with
  | nil => intro init; simp
  | cons a l ih => intro init; simp [List.foldl_cons, ih, List.append_assoc]

theorem foldl_push_if {α β : Type} (c : α → Bool) (t : α → β) :
    ∀ (l : List α) (init : List β),
      l.foldl (fun acc x => if c x then acc ++ [t x] else acc) init
        = init ++ l.flatMap (fun x => if c x then [t x] else []) := by
  intro l init
  have h : ∀ (acc : List β) (x : α),
      (if c x then acc ++ [t x] else acc) = acc ++ (if c x then [t x] else []) := by
    intro acc x
    by_cases h : c x <;> simp [h]
  calc l.foldl (fun acc x => if c x then acc ++ [t x] else acc) init
      = l.foldl (fun acc x => acc ++ (if c x then [t x] else [])) init := by
        congr 1
        funext acc x
        exact h acc x
    _ = init ++ l.flatMap (fun x => if c x then [t x] else []) :=
        foldl_append_singleton _ l init

theorem setEffectiveHamiltonianTerms_eq_bind {T : Type} [Inhabited T]
    (lopg : List T) (wl wr : SparMatM T) (ropg : List T) :
    setEffectiveHamiltonianTerms lopg wl wr ropg
      = (List.range lopg.length).flatMap (fun i =>
          (List.range wl.cols).flatMap (fun j =>
            (List.range wr.cols).flatMap (fun k =>
              if !wl.isNull i j && !wr.isNull j k then
                [effHamTerm lopg wl wr ropg i j k]
              else []))) := by
  unfold setEffectiveHamiltonianTerms
  calc (List.range lopg.length).foldl (fun acc i =>
          (List.range wl.cols).foldl (fun acc j =>
            (List.range wr.cols).foldl (fun acc k =>
              if !wl.isNull i j && !wr.isNull j k then
                acc ++ [effHamTerm lopg wl wr ropg i j k]
              else acc) acc) acc) []
      = (List.range lopg.length).foldl (fun acc i =>
          acc ++ (List.range wl.cols).flatMap (fun j =>
            (List.range wr.cols).flatMap (fun k =>
              if !wl.isNull i j && !wr.isNull j k then
                [effHamTerm lopg wl wr ropg i j k]
              else []))) [] := by
        congr 1
        funext acc i
        calc (List.range wl.cols).foldl (fun acc j =>
                (List.range wr.cols).foldl (fun acc k =>
                  if !wl.isNull i j && !wr.isNull j k then
                    acc ++ [effHamTerm lopg wl wr ropg i j k]
                  else acc) acc) acc
            = (List.range wl.cols).foldl (fun acc j =>
                acc ++ (List.range wr.cols).flatMap (fun k =>
                  if !wl.isNull i j && !wr.isNull j k then
                    [effHamTerm lopg wl wr ropg i j k]
                  else [])) acc := by
              congr 1
              funext acc j
              exact foldl_push_if _ _ _ acc
          _ = acc ++ (List.range wl.cols).flatMap (fun j =>
                (List.range wr.cols).flatMap (fun k =>
                  if !wl.isNull i j && !wr.isNull j k then
                    [effHamTerm lopg wl wr ropg i j k]
                  else [])) := foldl_append_singleton _ _ acc
    _ = (List.range lopg.length).flatMap (fun i =>
          (List.range wl.cols).flatMap (fun j =>
            (List.range wr.cols).flatMap (fun k =>
              if !wl.isNull i j && !wr.isNull j k then
                [effHamTerm lopg wl wr ropg i j k]
              else []))) := by
        rw [foldl_append_singleton]
        simp

/-- Claim C2: the assembler emits exactly the terms
`(L[l][i], W[l](i,j), W[r](j,k), R[N-1-r][k])` for the triples `(i,j,k)` with
`i < D_l`, `j < D_{l+1}`, `k < D_{r+1}` where both MPO entries are non-null, and
no others; the emission order is the deterministic lexicographic order in
`(i, j, k)`. -/
theorem claim_C2_eff_ham_assembly {T : Type} [Inhabited T]
    (lopg : List T) (wl wr : SparMatM T) (ropg : List T)
    (hlen : lopg.length = wl.rows) :
    setEffectiveHamiltonianTerms lopg wl wr ropg
      = (lexTriples wl.rows wl.cols wr.cols).foldl (fun acc t =>
          if !wl.isNull t.1 t.2.1 && !wr.isNull t.2.1 t.2.2 then
            acc ++ [effHamTerm lopg wl wr ropg t.1 t.2.1 t.2.2]
          else acc) [] ∧
    (∀ tm, tm ∈ setEffectiveHamiltonianTerms lopg wl wr ropg ↔
      ∃ i j k, i < wl.rows ∧ j < wl.cols ∧ k < wr.cols ∧
        wl.isNull i j = false ∧ wr.isNull j k = false ∧
        tm = effHamTerm lopg wl wr ropg i j k) := by
  constructor
  · rw [setEffectiveHamiltonianTerms_eq_bind, foldl_push_if, List.nil_append,
      hlen]
    simp only [lexTriples, List.flatMap_assoc, List.flatMap_map]
  · intro tm
    rw [setEffectiveHamiltonianTerms_eq_bind, hlen]
    simp only [List.mem_flatMap, List.mem_range]
    constructor
    · rintro ⟨i, hi, j, hj, k, hk, hmem⟩
      refine ⟨i, j, k, hi, hj, hk, ?_⟩
      by_cases h1 : wl.isNull i j <;> by_cases h2 : wr.isNull j k <;>
        simp [h1, h2] at hmem ⊢
      exact hmem
    · rintro ⟨i, j, k, hi, hj, hk, h1, h2, htm⟩
      exact ⟨i, hi, j, hj, k, hk, by simp [h1, h2, htm]⟩

theorem claim_C2_witness :
    ([0].length = (⟨1, 2, fun i j => if i = 0 ∧ j = 1 then some 7 else none⟩ :
        SparMatM Nat).rows) ∧
    ((42 : Nat), (7 : Nat), (8 : Nat), (9 : Nat)) ∈
      setEffectiveHamiltonianTerms [42]
        (⟨1, 2, fun i j => if i = 0 ∧ j = 1 then some 7 else none⟩ : SparMatM Nat)
        (⟨2, 1, fun j k => if j = 1 ∧ k = 0 then some 8 else none⟩ : SparMatM Nat)
        [9] := by
  refine ⟨rfl, ?_⟩
  have h := (claim_C2_eff_ham_assembly [42]
    (⟨1, 2, fun i j => if i = 0 ∧ j = 1 then some 7 else none⟩ : SparMatM Nat)
    (⟨2, 1, fun j k => if j = 1 ∧ k = 0 then some 8 else none⟩ : SparMatM Nat)
    [9] rfl).2
  rw [h]
  refine ⟨0, 1, 0, ?_⟩
  refine ⟨Nat.zero_lt_one, Nat.one_lt_two, Nat.zero_lt_one, ?_, ?_, ?_⟩
  · simp [SparMatM.isNull]
  · simp [SparMatM.isNull]
  · simp [effHamTerm, SparMatM.at]

/-! ### Two-site update (lanczos_dmrg_solver_impl.h, lines 369-458) -/

/-- Sweep direction, the executor's `dir_` field (`'r'` / `'l'`). -/
inductive Direction where
  | r
  | l
deriving DecidableEq

/-- Abstract tensor primitives consumed by the two-site update: contraction with
explicit axes, charge divergence (`Div`) into an abstract divergence type `D`,
and the truncated SVD returning `(u, s, vt, actual_trunc_err, D_kept)`. -/
structure DmrgTenOps (T D : Type) where
  contract : T → T → List Nat → List Nat → T
  div : T → D
  svdTrunc : T → Nat → D → Rat → Nat → Nat → T × T × T × Rat × Nat

/-- Modelled from the spec: the canonical-center tracking of `FiniteMPS` (header
gqmps2/one_dim_tn/mps/finite_mps.h is not among the sources). Spec §4.6 step 5:
after a right-moving two-site update the canonical center moves to `r = l + 1`,
after a left-moving one it moves to `l`. -/
def twoSiteNewCenter (dir : Direction) (l : Nat) : Nat :=
  match dir with
  | .r => l + 1
  | .l => l

/-- Result of one two-site update: the two new MPS tensors, the new canonical
center, the actual truncation error and the kept bond dimension. -/
structure TwoSiteRes (T : Type) where
  newL : T
  newR : T
  center : Nat
  truncErrAct : Rat
  dKept : Nat

/-- Embedding of `DMRGExecutor::TwoSiteUpdate_` (lanczos_dmrg_solver_impl.h,
lines 369-423): contract `MPS[l]` and `MPS[r]` over axes `{{2},{0}}` into the
initial two-site state, run Lanczos (abstracted as `lancz`), split the optimized
state by truncated SVD with `svd_ldims = 2`, target divergence `Div(MPS[l])`,
truncation target `trunc_err` and bounds `[Dmin, Dmax]`, then reassign the two
site tensors according to the sweep direction. -/
def twoSiteUpdate {T D : Type} (O : DmrgTenOps T D) (lancz : T → T)
    (truncErr : Rat) (dmin dmax : Nat) (dir : Direction) (l : Nat)
    (mpsL mpsR : T) : TwoSiteRes T :=
  let initState := O.contract mpsL mpsR [2] [0]
  let gsVec := lancz initState
  match O.svdTrunc gsVec 2 (O.div mpsL) truncErr dmin dmax with
  | (u, s, vt, actTruncErr, d) =>
    match dir with
    | .r => ⟨u, O.contract s vt [1] [0], twoSiteNewCenter dir l, actTruncErr, d⟩
    | .l => ⟨O.contract u s [2] [0], vt, twoSiteNewCenter dir l, actTruncErr, d⟩

/-- Claim C3: every two-site update at bond `(l, r = l+1)` splits the optimized
two-site state by truncated SVD with left-dimension count 2, truncation target
`trunc_err`, bounds `[Dmin, Dmax]` and target divergence `Div(MPS[l])`; when
right-moving, `MPS[l] ← U`, `MPS[r] ← S·Vᵀ` and the center moves to `r`; when
left-moving, `MPS[l] ← U·S`, `MPS[r] ← Vᵀ` and the center moves to `l`. -/
theorem claim_C3_two_site_update {T D : Type} (O : DmrgTenOps T D)
    (lancz : T → T) (truncErr : Rat) (dmin dmax : Nat) (l : Nat)
    (mpsL mpsR : T) :
    (∀ u s vt e d,
      O.svdTrunc (lancz (O.contract mpsL mpsR [2] [0])) 2 (O.div mpsL)
          truncErr dmin dmax = (u, s, vt, e, d) →
      twoSiteUpdate O lancz truncErr dmin dmax Direction.r l mpsL mpsR
        = ⟨u, O.contract s vt [1] [0], l + 1, e, d⟩) ∧
    (∀ u s vt e d,
      O.svdTrunc (lancz (O.contract mpsL mpsR [2] [0])) 2 (O.div mpsL)
          truncErr dmin dmax = (u, s, vt, e, d) →
      twoSiteUpdate O lancz truncErr dmin dmax Direction.l l mpsL mpsR
        = ⟨O.contract u s [2] [0], vt, l, e, d⟩) := by
  constructor
  · intro u s vt e d h
    simp only [twoSiteUpdate, h, twoSiteNewCenter]
  · intro u s vt e d h
    simp only [twoSiteUpdate, h, twoSiteNewCenter]

theorem claim_C3_witness :
    twoSiteUpdate (⟨fun a b _ _ => a + b, fun a => a,
        fun t _ _ _ _ _ => (t, t + 1, t + 2, 0, 4)⟩ : DmrgTenOps Nat Nat)
      (fun t => t * 10) 0 1 4 Direction.r 5 2 3
      = ⟨50, 103, 6, 0, 4⟩ ∧
    twoSiteUpdate (⟨fun a b _ _ => a + b, fun a => a,
        fun t _ _ _ _ _ => (t, t + 1, t + 2, 0, 4)⟩ : DmrgTenOps Nat Nat)
      (fun t => t * 10) 0 1 4 Direction.l 5 2 3
      = ⟨101, 52, 5, 0, 4⟩ := by
  constructor
  · exact (claim_C3_two_site_update _ _ _ _ _ _ _ _).1 50 51 52 0 4 rfl
  · exact (claim_C3_two_site_update _ _ _ _ _ _ _ _).2 50 51 52 0 4 rfl

/-! ### Sweep orchestration (lanczos_dmrg_solver_impl.h, lines 325-368) -/

/-- Embedding of `DMRGExecutor::DMRGSweep_` (lines 344-368): a right-moving pass
with `i` from `left_boundary` while `i < right_boundary - 1` doing bond
`(l = i, r = i+1)`, then a left-moving pass with `i` from `right_boundary` while
`i > left_boundary + 1` doing bond `(l = i-1, r = i)`. Each bond update maps the
executor state to a new state together with the bond energy `e0_`. -/
def dmrgSweep {St : Type} (upd : Direction → Nat → Nat → St → St × Rat)
    (lb rb : Nat) (se : St × Rat) : St × Rat :=
  let se1 := (List.range' lb (rb - 1 - lb)).foldl
    (fun p i => upd Direction.r i (i + 1) p.1) se
  ((List.range' (lb + 2) (rb - (lb + 1))).reverse).foldl
    (fun p i => upd Direction.l (i - 1) i p.1) se1

/-- Embedding of `DMRGExecutor::Execute` (lines 325-342): the sweep body is
repeated `sweeps` times; each sweep overwrites `e0_` with its return value. -/
def dmrgExecute {St : Type} (upd : Direction → Nat → Nat → St → St × Rat)
    (lb rb sweeps : Nat) (se : St × Rat) : St × Rat :=
  (List.range sweeps).foldl (fun p _ => dmrgSweep upd lb rb p) se

/-- The bond sequence of one sweep as the claim states it: bonds `(i, i+1)` for
`i = left_boundary, …, right_boundary − 2` in increasing order, then bonds
`(i−1, i)` for `i = right_boundary, …, left_boundary + 2` in decreasing order. -/
def claimBonds (lb rb : Nat) : List (Direction × Nat × Nat) :=
  ((List.range' lb (rb - 1 - lb)).map fun i => (Direction.r, i, i + 1)) ++
  (((List.range' (lb + 2) (rb - (lb + 1))).reverse).map
    fun i => (Direction.l, i - 1, i))

/-- Run a flat sequence of bond updates in order. -/
def bondSeqRun {St : Type} (upd : Direction → Nat → Nat → St → St × Rat)
    (bonds : List (Direction × Nat × Nat)) (se : St × Rat) : St × Rat :=
  bonds.foldl (fun p t => upd t.1 t.2.1 t.2.2 p.1) se

theorem bondSeqRun_append {St : Type} (upd : Direction → Nat → Nat → St → St × Rat)
    (b1 b2 : List (Direction × Nat × Nat)) (se : St × Rat) :
    bondSeqRun upd (b1 ++ b2) se = bondSeqRun upd b2 (bondSeqRun upd b1 se) := by
  unfold bondSeqRun
  rw [List.foldl_append]

theorem dmrgSweep_eq_bondSeqRun {St : Type}
    (upd : Direction → Nat → Nat → St → St × Rat) (lb rb : Nat) (se : St × Rat) :
    dmrgSweep upd lb rb se = bondSeqRun upd (claimBonds lb rb) se := by
  unfold dmrgSweep claimBonds
  rw [bondSeqRun_append]
  unfold bondSeqRun
  rw [List.foldl_map, List.foldl_map]

theorem dmrgExecute_eq_bondSeqRun {St : Type}
    (upd : Direction → Nat → Nat → St → St × Rat) (lb rb : Nat) :
    ∀ (sweeps : Nat) (se : St × Rat),
      dmrgExecute upd lb rb sweeps se
        = bondSeqRun upd ((List.replicate sweeps (claimBonds lb rb)).flatten) se := by
  intro sweeps
  induction sweeps with
  | zero => intro se; rfl
  | succ n ih =>
    intro se
    unfold dmrgExecute
    rw [List.range_succ, List.foldl_append, List.replicate_succ',
      List.flatten_append, bondSeqRun_append]
    simp only [List.foldl_cons, List.foldl_nil, List.flatten_cons,
      List.flatten_nil, List.append_nil]
    rw [dmrgSweep_eq_bondSeqRun]
    congr 1
    exact ih se

theorem claimBonds_getLast? (lb rb : Nat) (hlb : lb + 2 ≤ rb) :
    (claimBonds lb rb).getLast? = some (Direction.l, lb + 1, lb + 2) := by
  unfold claimBonds
  obtain ⟨m, hm⟩ : ∃ m, rb - (lb + 1) = m + 1 :=
    ⟨rb - (lb + 1) - 1, by omega⟩
  rw [hm]
  rw [List.getLast?_append_of_ne_nil, List.map_reverse, List.getLast?_reverse,
    List.range'_succ]
  · simp
  · simp [List.range'_succ]

theorem claim_C5_sweep_order {St : Type}
    (upd : Direction → Nat → Nat → St → St × Rat) (lb rb sweeps : Nat)
    (se : St × Rat) (hlb : lb + 2 ≤ rb) :
    (dmrgExecute upd lb rb sweeps se
      = bondSeqRun upd ((List.replicate sweeps (claimBonds lb rb)).flatten) se) ∧
    (claimBonds lb rb
      = ((List.range' lb (rb - 1 - lb)).map fun i => (Direction.r, i, i + 1)) ++
        (((List.range' (lb + 2) (rb - (lb + 1))).reverse).map
          fun i => (Direction.l, i - 1, i))) ∧
    (1 ≤ sweeps →
      (dmrgExecute upd lb rb sweeps se).2
        = (upd Direction.l (lb + 1) (lb + 2)
            (bondSeqRun upd
              (((List.replicate sweeps (claimBonds lb rb)).flatten).dropLast)
              se).1).2) := by
  refine ⟨dmrgExecute_eq_bondSeqRun upd lb rb sweeps se, rfl, ?_⟩
  intro hsw
  set allBonds := (List.replicate sweeps (claimBonds lb rb)).flatten with hall
  have hlast : allBonds.getLast? = some (Direction.l, lb + 1, lb + 2) := by
    rw [hall]
    obtain ⟨n, hn⟩ : ∃ n, sweeps = n + 1 := ⟨sweeps - 1, by omega⟩
    rw [hn, List.replicate_succ', List.flatten_append]
    simp only [List.flatten_cons, List.flatten_nil, List.append_nil]
    rw [List.getLast?_append_of_ne_nil, claimBonds_getLast? lb rb hlb]
    intro hnil
    have := claimBonds_getLast? lb rb hlb
    rw [hnil] at this
    simp at this
  have hne : allBonds ≠ [] := by
    intro hnil
    rw [hnil] at hlast
    simp at hlast
  have hsplit : allBonds.dropLast ++ [(Direction.l, lb + 1, lb + 2)] = allBonds := by
    have h1 := List.dropLast_append_getLast hne
    have h2 : allBonds.getLast hne = (Direction.l, lb + 1, lb + 2) := by
      have := List.getLast?_eq_getLast allBonds hne
      rw [this] at hlast
      exact Option.some_injective _ hlast
    rw [h2] at h1
    exact h1
  have hrun : bondSeqRun upd allBonds se
      = upd Direction.l (lb + 1) (lb + 2)
          (bondSeqRun upd allBonds.dropLast se).1 := by
    conv_lhs => rw [← hsplit]
    rw [bondSeqRun_append]
    rfl
  rw [dmrgExecute_eq_bondSeqRun upd lb rb sweeps se, ← hall, hrun]

/-- Claim C5 witness: the sweep with boundaries 0 and 4 and two repetitions
matches the flattened claimed bond list, and its final energy is that of the
last bond update `(l = 1, r = 2)` of the second sweep. -/
theorem claim_C5_witness :
    (dmrgExecute (fun _ l r n => (n + l + r, (r : Rat))) 0 4 2 ((0 : Nat), 0)
      = bondSeqRun (fun _ l r n => (n + l + r, (r : Rat)))
          ((List.replicate 2 (claimBonds 0 4)).flatten) ((0 : Nat), 0)) ∧
    ((dmrgExecute (fun _ l r n => (n + l + r, (r : Rat))) 0 4 2 ((0 : Nat), 0)).2
      = ((fun (_ : Direction) l r (n : Nat) => (n + l + r, (r : Rat)))
          Direction.l 1 2
          (bondSeqRun (fun _ l r n => (n + l + r, (r : Rat)))
            (((List.replicate 2 (claimBonds 0 4)).flatten).dropLast)
            ((0 : Nat), 0)).1).2) :=
  ⟨(claim_C5_sweep_order _ 0 4 2 _ (by decide)).1,
   (claim_C5_sweep_order _ 0 4 2 _ (by decide)).2.2 (by decide)⟩

/-! ### MPS on-disk round trip (mps.h, lines 51-54 and 159-197) -/

/-- Decimal digit rendering, part of the embedding of `std::to_string`. -/
def digitChar (d : Nat) : Char :=
  match d with
  | 0 => '0'
  | 1 => '1'
  | 2 => '2'
  | 3 => '3'
  | 4 => '4'
  | 5 => '5'
  | 6 => '6'
  | 7 => '7'
  | 8 => '8'
  | 9 => '9'
  | _ => '*'

/-- Left inverse of `digitChar` on decimal digits. -/
def charDigit (c : Char) : Nat :=
  if c = '0' then 0
  else if c = '1' then 1
  else if c = '2' then 2
  else if c = '3' then 3
  else if c = '4' then 4
  else if c = '5' then 5
  else if c = '6' then 6
  else if c = '7' then 7
  else if c = '8' then 8
  else if c = '9' then 9
  else 10

/-- Embedding of `std::to_string` on a `size_t` index: the decimal numeral of
`n`, most significant digit first. -/
def natToString (n : Nat) : String :=
  if n = 0 then "0" else String.mk (((Nat.digits 10 n).map digitChar).reverse)

/-- Decode a decimal numeral; left inverse of `natToString`. -/
def stringToNat (s : String) : Nat :=
  Nat.ofDigits 10 ((s.data.map charDigit).reverse)

theorem charDigit_digitChar {d : Nat} (hd : d < 10) : charDigit (digitChar d) = d := by
  interval_cases d <;> rfl

theorem stringToNat_natToString (n : Nat) : stringToNat (natToString n) = n := by
  unfold natToString
  by_cases h : n = 0
  · subst h
    rfl
  · rw [if_neg h]
    unfold stringToNat
    show Nat.ofDigits 10
      (((((Nat.digits 10 n).map digitChar).reverse).map charDigit).reverse) = n
    rw [List.map_reverse, List.reverse_reverse, List.map_map]
    have hmap : (Nat.digits 10 n).map (charDigit ∘ digitChar) = Nat.digits 10 n := by
      have : ∀ d ∈ Nat.digits 10 n, (charDigit ∘ digitChar) d = d := by
        intro d hd
        exact charDigit_digitChar (Nat.digits_lt_base (by norm_num) hd)
      exact (List.map_congr_left this).trans (List.map_id _)
    rw [hmap, Nat.ofDigits_digits]

theorem natToString_injective : Function.Injective natToString := by
  intro a b h
  have := congrArg stringToNat h
  rwa [stringToNat_natToString, stringToNat_natToString] at this

/-- Modelled from the spec: the constant `kMpsTenBaseName` lives in
gqmps2/consts.h, which is not among the sources; spec §6 prescribes per-site
file names `<basename><idx>.<ext>`. The concrete value is irrelevant here. -/
def kMpsTenBaseName : String := "mps_ten"

/-- Modelled from the spec: the constant `kGQTenFileSuffix` (gqmps2/consts.h is
not among the sources); the `<ext>` part of the per-site file name. -/
def kGQTenFileSuffix : String := "gqten"

/-- Embedding of the helper `GenMPSTenName` (mps.h, lines 51-54):
`mps_path + "/" + kMpsTenBaseName + std::to_string(idx) + "." + kGQTenFileSuffix`. -/
def GenMPSTenName (mpsPath : String) (idx : Nat) : String :=
  mpsPath ++ "/" ++ kMpsTenBaseName ++ natToString idx ++ "." ++ kGQTenFileSuffix

theorem GenMPSTenName_inj {mpsPath : String} {i j : Nat}
    (h : GenMPSTenName mpsPath i = GenMPSTenName mpsPath j) : i = j := by
  unfold GenMPSTenName at h
  have hdata := congrArg String.data h
  simp only [String.data_append] at hdata
  have h1 := List.append_cancel_right hdata
  have h2 := List.append_cancel_right h1
  have h3 := List.append_cancel_left h2
  exact natToString_injective (String.ext h3)

/-- A file system: a map from file names to stored tensors. -/
def FileSys (T : Type) : Type := String → Option T

/-- Modelled from the spec: `TenVec::DumpTen(i, file)` — the `TenVec` framework
header (one_dim_tn/framework/ten_vec.h) is not among the sources; per spec §3
("one file per site tensor") and the `TestTenVec.TestIO` unit test, dumping
serializes one tensor into the named file, overwriting permitted. -/
def dumpTenFile {T : Type} (fs : FileSys T) (file : String) (t : T) : FileSys T :=
  fun name => if name = file then some t else fs name

/-- Modelled from the spec: `TenVec::LoadTen(i, file)` reads back the tensor
stored in the named file; a missing file is a fatal I/O error (`none`). -/
def loadTenFile {T : Type} (fs : FileSys T) (file : String) : Option T := fs file

/-- Embedding of `MPS::Dump` (mps.h, lines 159-166 and 174-184): every site `i`
is written to the file `GenMPSTenName(mps_path, i)`. -/
def mpsDump {T : Type} [Inhabited T] (mpsPath : String) (tens : List T)
    (fs : FileSys T) : FileSys T :=
  (List.range tens.length).foldl
    (fun f i => dumpTenFile f (GenMPSTenName mpsPath i) (tens.getD i default)) fs

/-- Embedding of `MPS::Load` (mps.h, lines 191-197): every site `i` is read from
the file `GenMPSTenName(mps_path, i)`. -/
def mpsLoad {T : Type} (mpsPath : String) (n : Nat) (fs : FileSys T) :
    List (Option T) :=
  (List.range n).map (fun i => loadTenFile fs (GenMPSTenName mpsPath i))

theorem dump_fold_lookup_ne {T : Type} (name : Nat → String) (v : Nat → T) :
    ∀ (idxs : List Nat) (f : FileSys T) (k : String),
      (∀ i ∈ idxs, name i ≠ k) →
      (idxs.foldl (fun f i => dumpTenFile f (name i) (v i)) f) k = f k := by
  intro idxs
  induction idxs with
  | nil => intro f k _; rfl
  | cons a l ih =>
    intro f k hk
    simp only [List.foldl_cons]
    rw [ih _ k (fun i hi => hk i (List.mem_cons_of_mem a hi))]
    unfold dumpTenFile
    rw [if_neg]
    intro hkk
    exact hk a (List.mem_cons_self a l) hkk.symm

theorem dump_fold_lookup_eq {T : Type} (name : Nat → String) (v : Nat → T)
    (hinj : Function.Injective name) :
    ∀ (idxs : List Nat) (f : FileSys T) (j : Nat),
      idxs.Nodup → j ∈ idxs →
      (idxs.foldl (fun f i => dumpTenFile f (name i) (v i)) f) (name j)
        = some (v j) := by
  intro idxs
  induction idxs with
  | nil => intro f j _ hj; simp at hj
  | cons a l ih =>
    intro f j hnd hj
    simp only [List.foldl_cons]
    rcases List.mem_cons.mp hj with hja | hjl
    · subst hja
      rw [dump_fold_lookup_ne]
      · unfold dumpTenFile
        rw [if_pos rfl]
      · intro i hi hii
        have : i = j := hinj hii
        subst this
        exact (List.nodup_cons.mp hnd).1 hi
    · exact ih _ j (List.nodup_cons.mp hnd).2 hjl

/-- Claim C9: for every MPS with all site tensors resident and every path,
`Dump(path)` followed by `Load(path)` reproduces every site tensor: each site
`i` is written to and read back from the same generated file name, and the
round trip restores the original sequence of tensors. -/
theorem claim_C9_dump_load_round_trip {T : Type} [Inhabited T]
    (mpsPath : String) (tens : List T) (fs : FileSys T) :
    mpsLoad mpsPath tens.length (mpsDump mpsPath tens fs) = tens.map some := by
  unfold mpsLoad mpsDump loadTenFile
  apply List.ext_getElem?
  intro i
  by_cases hi : i < tens.length
  · rw [List.getElem?_map, List.getElem?_map, List.getElem?_range hi,
      List.getElem?_eq_getElem hi]
    simp only [Option.map_some']
    rw [dump_fold_lookup_eq (GenMPSTenName mpsPath)
      (fun i => tens.getD i default) (fun _ _ h => GenMPSTenName_inj h)
      (List.range tens.length) fs i (List.nodup_range _) (List.mem_range.mpr hi)]
    rw [List.getD_eq_getElem tens default hi]
  · rw [List.getElem?_map, List.getElem?_map]
    rw [List.getElem?_eq_none (by simpa using Nat.le_of_not_lt hi),
      List.getElem?_eq_none (by simpa using Nat.le_of_not_lt hi)]
    rfl

/-! ### Centralize (mps.h, lines 216-311) -/

/-- Abstract tensor primitives used by the canonicalization passes: the plain
SVD `mock_gqten::SVD(t, ldims, div) → (u, s, vt)`, contraction with explicit
axes, charge divergence (`Div`) and divergence subtraction. -/
structure CanoTenOps (T D : Type) where
  svdCano : T → Nat → D → T × T × T
  contract : T → T → List Nat → List Nat → T
  div : T → D
  dsub : D → D → D

/-- Embedding of `MPS::LeftCanonicalizeTen_` (mps.h, lines 240-265): SVD-split
site `i` with left-dimension count `1` if `i = 0` else `2` and target
divergence `Div` of the site; site `i` becomes `u`, site `i+1` absorbs
`s·vt`; the canonical types become `LEFT` at `i` and `NONE` at `i+1`, and the
mutating accesses reset the center to the uncentralized sentinel. -/
def leftCanonicalizeTen {T D : Type} [Inhabited T] (O : CanoTenOps T D)
    (i : Nat) (s : MPSState T) : MPSState T :=
  let ldims := if i = 0 then 1 else 2
  let ten := s.tens.getD i default
  match O.svdCano ten ldims (O.div ten) with
  | (u, sm, vt) =>
    let tens1 := s.tens.set i u
    let temp := O.contract sm vt [1] [0]
    let nxt := O.contract temp (tens1.getD (i + 1) default) [1] [0]
    ⟨tens1.set (i + 1) nxt, kUncentralizedCenterIdx,
      (s.canoTypes.set i MPSTenCanoType.LEFT).set (i + 1) MPSTenCanoType.NONE⟩

/-- Embedding of `MPS::RightCanonicalizeTen_` (mps.h, lines 281-311): SVD-split
site `i` with left-dimension count `1` and zero target divergence
(`Div − Div`); site `i` becomes `vt`, site `i-1` absorbs `u·s` over axis `1`
when `i-1 = 0` and axis `2` otherwise; canonical types become `RIGHT` at `i`
and `NONE` at `i-1`. -/
def rightCanonicalizeTen {T D : Type} [Inhabited T] (O : CanoTenOps T D)
    (i : Nat) (s : MPSState T) : MPSState T :=
  let ten := s.tens.getD i default
  let qndiv := O.div ten
  match O.svdCano ten 1 (O.dsub qndiv qndiv) with
  | (u, sm, vt) =>
    let tens1 := s.tens.set i vt
    let temp := O.contract u sm [1] [0]
    let taCtrctAxes := if i - 1 = 0 then [1] else [2]
    let prev := O.contract (tens1.getD (i - 1) default) temp taCtrctAxes [0]
    ⟨tens1.set (i - 1) prev, kUncentralizedCenterIdx,
      (s.canoTypes.set i MPSTenCanoType.RIGHT).set (i - 1) MPSTenCanoType.NONE⟩

/-- First index in the scan list satisfying `p`; embeds the search loops at the
start of `MPS::LeftCanonicalize_` / `MPS::RightCanonicalize_`. -/
def scanFirst (p : Nat → Prop) [DecidablePred p] : List Nat → Option Nat
  | [] => none
  | i :: is => if p i then some i else scanFirst p is

/-- Embedding of `MPS::LeftCanonicalize_` (mps.h, lines 228-237): find the first
index `i ≤ stop` whose canonical type is not `LEFT`; when every one is `LEFT`,
do nothing; otherwise run `LeftCanonicalizeTen_` from that index up to `stop`. -/
def leftCanonicalize {T D : Type} [Inhabited T] (O : CanoTenOps T D)
    (stop : Nat) (s : MPSState T) : MPSState T :=
  match scanFirst
      (fun i => s.canoTypes.getD i MPSTenCanoType.NONE ≠ MPSTenCanoType.LEFT)
      (List.range (stop + 1)) with
  | none => s
  | some start =>
    (List.range' start (stop + 1 - start)).foldl
      (fun t i => leftCanonicalizeTen O i t) s

/-- Embedding of `MPS::RightCanonicalize_` (mps.h, lines 268-278): find, walking
down from the tail index, the first index `i ≥ stop` whose canonical type is
not `RIGHT`; when every one is `RIGHT`, do nothing; otherwise run
`RightCanonicalizeTen_` from that index down to `stop`. -/
def rightCanonicalize {T D : Type} [Inhabited T] (O : CanoTenOps T D)
    (stop : Nat) (s : MPSState T) : MPSState T :=
  let mpsTailIdx := s.tens.length - 1
  match scanFirst
      (fun i => s.canoTypes.getD i MPSTenCanoType.NONE ≠ MPSTenCanoType.RIGHT)
      ((List.range' stop (mpsTailIdx + 1 - stop)).reverse) with
  | none => s
  | some start =>
    ((List.range' stop (start + 1 - stop)).reverse).foldl
      (fun t i => rightCanonicalizeTen O i t) s

/-- Embedding of `MPS::Centralize` (mps.h, lines 216-225): a left pass up to
`target - 1` (unless `target = 0`), a right pass down to `target + 1` (unless
`target` is the tail index), then the center is set to `target`. -/
def centralize {T D : Type} [Inhabited T] (O : CanoTenOps T D)
    (target : Nat) (s : MPSState T) : MPSState T :=
  let mpsTailIdx := s.tens.length - 1
  let s1 := if target ≠ 0 then leftCanonicalize O (target - 1) s else s
  let s2 := if target ≠ mpsTailIdx then rightCanonicalize O (target + 1) s1 else s1
  ⟨s2.tens, (target : Int), s2.canoTypes⟩

theorem leftCanonicalizeTen_cano {T D : Type} [Inhabited T] (O : CanoTenOps T D)
    (i : Nat) (s : MPSState T) :
    (leftCanonicalizeTen O i s).canoTypes
      = (s.canoTypes.set i MPSTenCanoType.LEFT).set (i + 1) MPSTenCanoType.NONE := by
  unfold leftCanonicalizeTen
  rcases O.svdCano (s.tens.getD i default)
    (if i = 0 then 1 else 2) (O.div (s.tens.getD i default)) with ⟨u, sm, vt⟩
  rfl

theorem leftCanonicalizeTen_tens_length {T D : Type} [Inhabited T]
    (O : CanoTenOps T D) (i : Nat) (s : MPSState T) :
    (leftCanonicalizeTen O i s).tens.length = s.tens.length := by
  unfold leftCanonicalizeTen
  rcases O.svdCano (s.tens.getD i default)
    (if i = 0 then 1 else 2) (O.div (s.tens.getD i default)) with ⟨u, sm, vt⟩
  simp

theorem rightCanonicalizeTen_cano {T D : Type} [Inhabited T] (O : CanoTenOps T D)
    (i : Nat) (s : MPSState T) :
    (rightCanonicalizeTen O i s).canoTypes
      = (s.canoTypes.set i MPSTenCanoType.RIGHT).set (i - 1) MPSTenCanoType.NONE := by
  unfold rightCanonicalizeTen
  rcases O.svdCano (s.tens.getD i default) 1
    (O.dsub (O.div (s.tens.getD i default)) (O.div (s.tens.getD i default))) with ⟨u, sm, vt⟩
  rfl

theorem rightCanonicalizeTen_tens_length {T D : Type} [Inhabited T]
    (O : CanoTenOps T D) (i : Nat) (s : MPSState T) :
    (rightCanonicalizeTen O i s).tens.length = s.tens.length := by
  unfold rightCanonicalizeTen
  rcases O.svdCano (s.tens.getD i default) 1
    (O.dsub (O.div (s.tens.getD i default)) (O.div (s.tens.getD i default))) with ⟨u, sm, vt⟩
  simp

theorem leftCanonicalizeTen_cano_length {T D : Type} [Inhabited T]
    (O : CanoTenOps T D) (i : Nat) (s : MPSState T) :
    (leftCanonicalizeTen O i s).canoTypes.length = s.canoTypes.length := by
  rw [leftCanonicalizeTen_cano]
  simp

theorem rightCanonicalizeTen_cano_length {T D : Type} [Inhabited T]
    (O : CanoTenOps T D) (i : Nat) (s : MPSState T) :
    (rightCanonicalizeTen O i s).canoTypes.length = s.canoTypes.length := by
  rw [rightCanonicalizeTen_cano]
  simp

theorem scanFirst_eq_none {p : Nat → Prop} [DecidablePred p] :
    ∀ {l : List Nat}, scanFirst p l = none ↔ ∀ i ∈ l, ¬ p i := by
  intro l
  induction l with
  | nil => simp [scanFirst]
  | cons a l ih =>
    simp only [scanFirst]
    by_cases h : p a
    · simp [h]
    · simp [h, ih]

theorem scanFirst_range'_some {p : Nat → Prop} [DecidablePred p] :
    ∀ (n st a : Nat), scanFirst p (List.range' st n) = some a →
      st ≤ a ∧ a < st + n ∧ p a ∧ ∀ j, st ≤ j → j < a → ¬ p j := by
  intro n
  induction n with
  | zero => intro st a h; simp [scanFirst] at h
  | succ n ih =>
    intro st a h
    rw [List.range'] at h
    simp only [scanFirst] at h
    by_cases hp : p st
    · rw [if_pos hp] at h
      cases h
      exact ⟨Nat.le_refl _, by omega, hp, fun j h1 h2 => by omega⟩
    · rw [if_neg hp] at h
      obtain ⟨h1, h2, h3, h4⟩ := ih (st + 1) a h
      refine ⟨by omega, by omega, h3, ?_⟩
      intro j hj1 hj2
      by_cases hjst : j = st
      · subst hjst; exact hp
      · exact h4 j (by omega) hj2

theorem scanFirst_range'_reverse_some {p : Nat → Prop} [DecidablePred p] :
    ∀ (n st a : Nat), scanFirst p ((List.range' st n).reverse) = some a →
      st ≤ a ∧ a < st + n ∧ p a ∧ ∀ j, a < j → j < st + n → ¬ p j := by
  intro n
  induction n with
  | zero => intro st a h; simp [scanFirst] at h
  | succ n ih =>
    intro st a h
    rw [List.range'_1_concat, List.reverse_append] at h
    simp only [List.reverse_cons, List.reverse_nil, List.nil_append,
      List.cons_append, List.singleton_append, scanFirst] at h
    by_cases hp : p (st + n)
    · rw [if_pos hp] at h
      cases h
      exact ⟨by omega, by omega, hp, fun j h1 h2 => by omega⟩
    · rw [if_neg hp] at h
      obtain ⟨h1, h2, h3, h4⟩ := ih st a h
      refine ⟨h1, by omega, h3, ?_⟩
      intro j hj1 hj2
      by_cases hjn : j = st + n
      · subst hjn; exact hp
      · exact h4 j hj1 (by omega)

theorem leftPass_lengths {T D : Type} [Inhabited T] (O : CanoTenOps T D) :
    ∀ (l : List Nat) (s : MPSState T),
      ((l.foldl (fun t i => leftCanonicalizeTen O i t) s).tens.length
          = s.tens.length) ∧
      ((l.foldl (fun t i => leftCanonicalizeTen O i t) s).canoTypes.length
          = s.canoTypes.length) := by
  intro l
  induction l with
  | nil => intro s; exact ⟨rfl, rfl⟩
  | cons a l ih =>
    intro s
    simp only [List.foldl_cons]
    obtain ⟨h1, h2⟩ := ih (leftCanonicalizeTen O a s)
    rw [h1, h2, leftCanonicalizeTen_tens_length, leftCanonicalizeTen_cano_length]
    exact ⟨rfl, rfl⟩

theorem rightPass_lengths {T D : Type} [Inhabited T] (O : CanoTenOps T D) :
    ∀ (l : List Nat) (s : MPSState T),
      ((l.foldl (fun t i => rightCanonicalizeTen O i t) s).tens.length
          = s.tens.length) ∧
      ((l.foldl (fun t i => rightCanonicalizeTen O i t) s).canoTypes.length
          = s.canoTypes.length) := by
  intro l
  induction l with
  | nil => intro s; exact ⟨rfl, rfl⟩
  | cons a l ih =>
    intro s
    simp only [List.foldl_cons]
    obtain ⟨h1, h2⟩ := ih (rightCanonicalizeTen O a s)
    rw [h1, h2, rightCanonicalizeTen_tens_length, rightCanonicalizeTen_cano_length]
    exact ⟨rfl, rfl⟩

theorem leftPass_cano {T D : Type} [Inhabited T] (O : CanoTenOps T D) :
    ∀ (c start : Nat) (s : MPSState T), start + c + 1 < s.canoTypes.length →
      ∀ j,
        ((List.range' start (c + 1)).foldl
            (fun t i => leftCanonicalizeTen O i t) s).canoTypes[j]?
          = if j < start then s.canoTypes[j]?
            else if j < start + (c + 1) then some MPSTenCanoType.LEFT
            else if j = start + (c + 1) then some MPSTenCanoType.NONE
            else s.canoTypes[j]? := by
  intro c
  induction c with
  | zero =>
    intro start s hb j
    rw [show List.range' start 1 = [start] from rfl]
    simp only [List.foldl_cons, List.foldl_nil]
    rw [leftCanonicalizeTen_cano]
    by_cases hj1 : j < start
    · rw [List.getElem?_set_ne (by omega), List.getElem?_set_ne (by omega),
        if_pos hj1]
    · by_cases hj2 : j = start
      · subst hj2
        rw [List.getElem?_set_ne (by omega)]
        rw [List.getElem?_set_self (by omega)]
        rw [if_neg (by omega), if_pos (by omega)]
      · by_cases hj3 : j = start + 1
        · subst hj3
          rw [List.getElem?_set_self (by rw [List.length_set]; omega)]
          rw [if_neg (by omega), if_neg (by omega), if_pos (by omega)]
        · rw [List.getElem?_set_ne (by omega), List.getElem?_set_ne (by omega),
            if_neg (by omega), if_neg (by omega), if_neg (by omega)]
  | succ c ih =>
    intro start s hb j
    rw [show List.range' start (c + 1 + 1) = start :: List.range' (start + 1) (c + 1)
      from rfl]
    simp only [List.foldl_cons]
    rw [ih (start + 1) (leftCanonicalizeTen O start s)
      (by rw [leftCanonicalizeTen_cano_length]; omega) j]
    rw [leftCanonicalizeTen_cano]
    by_cases hj1 : j < start
    · rw [if_pos (by omega), if_pos hj1,
        List.getElem?_set_ne (by omega), List.getElem?_set_ne (by omega)]
    · by_cases hj2 : j = start
      · subst hj2
        rw [if_pos (by omega), if_neg (by omega), if_pos (by omega),
          List.getElem?_set_ne (by omega), List.getElem?_set_self (by omega)]
      · by_cases hj3 : j < start + (c + 1 + 1)
        · rw [if_neg (by omega), if_pos (by omega), if_neg (by omega),
            if_pos (by omega)]
        · by_cases hj4 : j = start + (c + 1 + 1)
          · rw [if_neg (by omega), if_neg (by omega), if_pos (by omega),
              if_neg (by omega), if_neg (by omega), if_pos (by omega)]
          · rw [if_neg (by omega), if_neg (by omega), if_neg (by omega),
              if_neg (by omega), if_neg (by omega), if_neg (by omega),
              List.getElem?_set_ne (by omega), List.getElem?_set_ne (by omega)]

theorem rightPass_cano {T D : Type} [Inhabited T] (O : CanoTenOps T D) :
    ∀ (c stop : Nat) (s : MPSState T), 1 ≤ stop →
      stop + c < s.canoTypes.length →
      ∀ j,
        (((List.range' stop (c + 1)).reverse).foldl
            (fun t i => rightCanonicalizeTen O i t) s).canoTypes[j]?
          = if j + 1 < stop then s.canoTypes[j]?
            else if j + 1 = stop then some MPSTenCanoType.NONE
            else if j ≤ stop + c then some MPSTenCanoType.RIGHT
            else s.canoTypes[j]? := by
  intro c
  induction c with
  | zero =>
    intro stop s hstop hb j
    rw [show (List.range' stop 1).reverse = [stop] from rfl]
    simp only [List.foldl_cons, List.foldl_nil]
    rw [rightCanonicalizeTen_cano]
    by_cases hj1 : j + 1 < stop
    · rw [List.getElem?_set_ne (by omega), List.getElem?_set_ne (by omega),
        if_pos hj1]
    · by_cases hj2 : j + 1 = stop
      · rw [show j = stop - 1 from by omega,
          List.getElem?_set_self (by rw [List.length_set]; omega),
          if_neg (by omega), if_pos (by omega)]
      · by_cases hj3 : j = stop
        · subst hj3
          rw [List.getElem?_set_ne (by omega), List.getElem?_set_self (by omega),
            if_neg (by omega), if_neg (by omega), if_pos (by omega)]
        · rw [List.getElem?_set_ne (by omega), List.getElem?_set_ne (by omega),
            if_neg (by omega), if_neg (by omega), if_neg (by omega)]
  | succ c ih =>
    intro stop s hstop hb j
    rw [List.range'_1_concat, List.reverse_append]
    simp only [List.reverse_cons, List.reverse_nil, List.nil_append,
      List.cons_append, List.singleton_append, List.foldl_cons]
    rw [ih stop (rightCanonicalizeTen O (stop + (c + 1)) s) hstop
      (by rw [rightCanonicalizeTen_cano_length]; omega) j]
    rw [rightCanonicalizeTen_cano]
    have hsc : stop + (c + 1) = stop + c + 1 := rfl
    rw [hsc]
    by_cases hj1 : j + 1 < stop
    · rw [if_pos hj1, if_pos hj1,
        List.getElem?_set_ne (by omega), List.getElem?_set_ne (by omega)]
    · by_cases hj2 : j + 1 = stop
      · rw [if_neg hj1, if_pos hj2, if_neg hj1, if_pos hj2]
      · by_cases hj3 : j ≤ stop + c
        · rw [if_neg hj1, if_neg hj2, if_pos hj3, if_neg hj1, if_neg hj2,
            if_pos (by omega)]
        · by_cases hj4 : j = stop + c + 1
          · subst hj4
            rw [if_neg hj1, if_neg hj2, if_neg hj3,
              List.getElem?_set_ne (by omega), List.getElem?_set_self (by omega),
              if_neg hj1, if_neg hj2, if_pos (by omega)]
          · rw [if_neg hj1, if_neg hj2, if_neg hj3,
              List.getElem?_set_ne (by omega), List.getElem?_set_ne (by omega),
              if_neg hj1, if_neg hj2, if_neg (by omega)]

theorem leftCanonicalize_none {T D : Type} [Inhabited T] (O : CanoTenOps T D)
    (stop : Nat) (s : MPSState T)
    (h : scanFirst
        (fun i => s.canoTypes.getD i MPSTenCanoType.NONE ≠ MPSTenCanoType.LEFT)
        (List.range (stop + 1)) = none) :
    leftCanonicalize O stop s = s := by
  unfold leftCanonicalize
  rw [h]

theorem leftCanonicalize_some {T D : Type} [Inhabited T] (O : CanoTenOps T D)
    (stop : Nat) (s : MPSState T) (start : Nat)
    (h : scanFirst
        (fun i => s.canoTypes.getD i MPSTenCanoType.NONE ≠ MPSTenCanoType.LEFT)
        (List.range (stop + 1)) = some start) :
    leftCanonicalize O stop s
      = (List.range' start (stop + 1 - start)).foldl
          (fun t i => leftCanonicalizeTen O i t) s := by
  unfold leftCanonicalize
  rw [h]

theorem rightCanonicalize_none {T D : Type} [Inhabited T] (O : CanoTenOps T D)
    (stop : Nat) (s : MPSState T)
    (h : scanFirst
        (fun i => s.canoTypes.getD i MPSTenCanoType.NONE ≠ MPSTenCanoType.RIGHT)
        ((List.range' stop (s.tens.length - 1 + 1 - stop)).reverse) = none) :
    rightCanonicalize O stop s = s := by
  unfold rightCanonicalize
  simp only [h]

theorem rightCanonicalize_some {T D : Type} [Inhabited T] (O : CanoTenOps T D)
    (stop : Nat) (s : MPSState T) (start : Nat)
    (h : scanFirst
        (fun i => s.canoTypes.getD i MPSTenCanoType.NONE ≠ MPSTenCanoType.RIGHT)
        ((List.range' stop (s.tens.length - 1 + 1 - stop)).reverse) = some start) :
    rightCanonicalize O stop s
      = ((List.range' stop (start + 1 - stop)).reverse).foldl
          (fun t i => rightCanonicalizeTen O i t) s := by
  unfold rightCanonicalize
  simp only [h]

theorem leftCanonicalize_no_op {T D : Type} [Inhabited T] (O : CanoTenOps T D)
    (stop : Nat) (s : MPSState T)
    (hall : ∀ i, i ≤ stop →
      s.canoTypes.getD i MPSTenCanoType.NONE = MPSTenCanoType.LEFT) :
    leftCanonicalize O stop s = s := by
  apply leftCanonicalize_none
  apply scanFirst_eq_none.mpr
  intro i hi
  rw [List.mem_range] at hi
  exact not_ne_iff.mpr (hall i (by omega))

theorem rightCanonicalize_no_op {T D : Type} [Inhabited T] (O : CanoTenOps T D)
    (stop : Nat) (s : MPSState T)
    (hall : ∀ i, stop ≤ i → i ≤ s.tens.length - 1 →
      s.canoTypes.getD i MPSTenCanoType.NONE = MPSTenCanoType.RIGHT) :
    rightCanonicalize O stop s = s := by
  apply rightCanonicalize_none
  apply scanFirst_eq_none.mpr
  intro i hi
  rw [List.mem_reverse, List.mem_range'_1] at hi
  exact not_ne_iff.mpr (hall i hi.1 (by omega))

theorem leftCanonicalize_spec {T D : Type} [Inhabited T] (O : CanoTenOps T D)
    (stop : Nat) (s : MPSState T) (hb : stop + 1 < s.canoTypes.length) :
    (∀ j, j ≤ stop →
      (leftCanonicalize O stop s).canoTypes[j]? = some MPSTenCanoType.LEFT) ∧
    (∀ j, stop + 2 ≤ j →
      (leftCanonicalize O stop s).canoTypes[j]? = s.canoTypes[j]?) ∧
    (leftCanonicalize O stop s).tens.length = s.tens.length ∧
    (leftCanonicalize O stop s).canoTypes.length = s.canoTypes.length := by
  rcases hscan : scanFirst
      (fun i => s.canoTypes.getD i MPSTenCanoType.NONE ≠ MPSTenCanoType.LEFT)
      (List.range (stop + 1)) with _ | start
  · rw [leftCanonicalize_none O stop s hscan]
    refine ⟨?_, fun j _ => rfl, rfl, rfl⟩
    intro j hj
    have hnp := (scanFirst_eq_none.mp hscan) j (List.mem_range.mpr (by omega))
    have hgd := not_ne_iff.mp hnp
    have hjlen : j < s.canoTypes.length := by omega
    rw [List.getD_eq_getElem s.canoTypes MPSTenCanoType.NONE hjlen] at hgd
    rw [List.getElem?_eq_getElem hjlen, hgd]
  · have hrg : List.range (stop + 1) = List.range' 0 (stop + 1) :=
      List.range_eq_range' (stop + 1)
    rw [hrg] at hscan
    obtain ⟨-, hlt, -, hmin⟩ := scanFirst_range'_some (stop + 1) 0 start hscan
    have hstart : start ≤ stop := by omega
    have hcnt : stop + 1 - start = (stop - start) + 1 := by omega
    rw [← hrg] at hscan
    rw [leftCanonicalize_some O stop s start hscan, hcnt]
    refine ⟨?_, ?_, (leftPass_lengths O _ s).1, (leftPass_lengths O _ s).2⟩
    · intro j hj
      rw [leftPass_cano O (stop - start) start s (by omega) j]
      by_cases hjs : j < start
      · rw [if_pos hjs]
        have hnp := hmin j (by omega) hjs
        have hgd := not_ne_iff.mp hnp
        have hjlen : j < s.canoTypes.length := by omega
        rw [List.getD_eq_getElem s.canoTypes MPSTenCanoType.NONE hjlen] at hgd
        rw [List.getElem?_eq_getElem hjlen, hgd]
      · rw [if_neg hjs, if_pos (by omega)]
    · intro j hj
      rw [leftPass_cano O (stop - start) start s (by omega) j]
      rw [if_neg (by omega), if_neg (by omega), if_neg (by omega)]

theorem rightCanonicalize_spec {T D : Type} [Inhabited T] (O : CanoTenOps T D)
    (stop : Nat) (s : MPSState T) (hstop : 1 ≤ stop)
    (hlen : s.canoTypes.length = s.tens.length)
    (htail : stop ≤ s.tens.length - 1) :
    (∀ j, stop ≤ j → j ≤ s.tens.length - 1 →
      (rightCanonicalize O stop s).canoTypes[j]? = some MPSTenCanoType.RIGHT) ∧
    (∀ j, j + 1 < stop →
      (rightCanonicalize O stop s).canoTypes[j]? = s.canoTypes[j]?) ∧
    (rightCanonicalize O stop s).tens.length = s.tens.length ∧
    (rightCanonicalize O stop s).canoTypes.length = s.canoTypes.length := by
  have hlen2 : 2 ≤ s.tens.length := by omega
  rcases hscan : scanFirst
      (fun i => s.canoTypes.getD i MPSTenCanoType.NONE ≠ MPSTenCanoType.RIGHT)
      ((List.range' stop (s.tens.length - 1 + 1 - stop)).reverse) with _ | start
  · rw [rightCanonicalize_none O stop s hscan]
    refine ⟨?_, fun j _ => rfl, rfl, rfl⟩
    intro j hj1 hj2
    have hnp := (scanFirst_eq_none.mp hscan) j
      (by rw [List.mem_reverse, List.mem_range'_1]; omega)
    have hgd := not_ne_iff.mp hnp
    have hjlen : j < s.canoTypes.length := by omega
    rw [List.getD_eq_getElem s.canoTypes MPSTenCanoType.NONE hjlen] at hgd
    rw [List.getElem?_eq_getElem hjlen, hgd]
  · obtain ⟨h1, h2, -, hmin⟩ := scanFirst_range'_reverse_some
      (s.tens.length - 1 + 1 - stop) stop start hscan
    have hcnt : start + 1 - stop = (start - stop) + 1 := by omega
    rw [rightCanonicalize_some O stop s start hscan, hcnt]
    refine ⟨?_, ?_, (rightPass_lengths O _ s).1, (rightPass_lengths O _ s).2⟩
    · intro j hj1 hj2
      rw [rightPass_cano O (start - stop) stop s hstop (by omega) j]
      by_cases hjs : j ≤ stop + (start - stop)
      · rw [if_neg (by omega), if_neg (by omega), if_pos hjs]
      · rw [if_neg (by omega), if_neg (by omega), if_neg hjs]
        have hnp := hmin j (by omega) (by omega)
        have hgd := not_ne_iff.mp hnp
        have hjlen : j < s.canoTypes.length := by omega
        rw [List.getD_eq_getElem s.canoTypes MPSTenCanoType.NONE hjlen] at hgd
        rw [List.getElem?_eq_getElem hjlen, hgd]
    · intro j hj
      rw [rightPass_cano O (start - stop) stop s hstop (by omega) j]
      rw [if_pos hj]

theorem centralize_def {T D : Type} [Inhabited T] (O : CanoTenOps T D)
    (target : Nat) (s : MPSState T) :
    centralize O target s
      = ⟨(if target ≠ s.tens.length - 1
            then rightCanonicalize O (target + 1)
              (if target ≠ 0 then leftCanonicalize O (target - 1) s else s)
            else (if target ≠ 0 then leftCanonicalize O (target - 1) s else s)).tens,
         (target : Int),
         (if target ≠ s.tens.length - 1
            then rightCanonicalize O (target + 1)
              (if target ≠ 0 then leftCanonicalize O (target - 1) s else s)
            else (if target ≠ 0 then leftCanonicalize O (target - 1) s else s)).canoTypes⟩ :=
  rfl

/-- Claim C8: `Centralize(target)` leaves the center at `target`, every position
left of `target` left-canonical and every position right of `target`
right-canonical, and it is idempotent: a second `Centralize(target)` call
detects the already-canonical prefix and suffix and modifies no site tensor and
no canonical metadata. -/
theorem claim_C8_centralize_idempotent {T D : Type} [Inhabited T]
    (O : CanoTenOps T D) (s : MPSState T) (target : Nat)
    (hlen : s.canoTypes.length = s.tens.length)
    (htarget : target < s.tens.length) :
    (centralize O target s).center = (target : Int) ∧
    (∀ j, j < target →
      (centralize O target s).canoTypes[j]? = some MPSTenCanoType.LEFT) ∧
    (∀ j, target < j → j < s.tens.length →
      (centralize O target s).canoTypes[j]? = some MPSTenCanoType.RIGHT) ∧
    centralize O target (centralize O target s) = centralize O target s := by
  by_cases h0 : target = 0
  · subst h0
    by_cases htl : (0 : Nat) = s.tens.length - 1
    · -- single-site chain: neither pass runs
      have hX : centralize O 0 s = ⟨s.tens, ((0 : Nat) : Int), s.canoTypes⟩ := by
        rw [centralize_def, if_neg (by omega), if_neg (by omega)]
      rw [hX]
      refine ⟨rfl, fun j hj => by omega, fun j hj1 hj2 => by omega, ?_⟩
      rw [centralize_def, if_neg (by simpa using htl), if_neg (by omega)]
    · -- only the right pass runs
      obtain ⟨hA2, hB2, hT2, hC2⟩ :=
        rightCanonicalize_spec O 1 s (by omega) hlen (by omega)
      have hX : centralize O 0 s
          = ⟨(rightCanonicalize O (0 + 1) s).tens, ((0 : Nat) : Int),
             (rightCanonicalize O (0 + 1) s).canoTypes⟩ := by
        rw [centralize_def, if_pos (by omega), if_neg (by omega)]
      rw [hX]
      refine ⟨rfl, fun j hj => by omega, ?_, ?_⟩
      · intro j hj1 hj2
        show (rightCanonicalize O 1 s).canoTypes[j]? = some MPSTenCanoType.RIGHT
        exact hA2 j (by omega) (by omega)
      · rw [centralize_def]
        have hlen2 : (⟨(rightCanonicalize O (0 + 1) s).tens, ((0 : Nat) : Int),
            (rightCanonicalize O (0 + 1) s).canoTypes⟩ : MPSState T).tens.length
              = s.tens.length := hT2
        rw [if_pos (by rw [hlen2]; omega), if_neg (by omega)]
        rw [rightCanonicalize_no_op]
        · intro i hi1 hi2
          show ((rightCanonicalize O 1 s).canoTypes.getD i MPSTenCanoType.NONE)
              = MPSTenCanoType.RIGHT
          rw [List.getD_eq_getElem?_getD,
            hA2 i hi1 (by rw [hlen2] at hi2; omega)]
          rfl
  · have hb1 : (target - 1) + 1 < s.canoTypes.length := by omega
    obtain ⟨hA1, hB1, hT1, hC1⟩ := leftCanonicalize_spec O (target - 1) s hb1
    by_cases htl : target = s.tens.length - 1
    · -- no right pass
      have hX : centralize O target s
          = ⟨(leftCanonicalize O (target - 1) s).tens, (target : Int),
             (leftCanonicalize O (target - 1) s).canoTypes⟩ := by
        rw [centralize_def, if_neg (by omega), if_pos h0]
      rw [hX]
      refine ⟨rfl, ?_, fun j hj1 hj2 => by omega, ?_⟩
      · intro j hj
        show (leftCanonicalize O (target - 1) s).canoTypes[j]?
            = some MPSTenCanoType.LEFT
        exact hA1 j (by omega)
      · rw [centralize_def]
        have hlen2 : (⟨(leftCanonicalize O (target - 1) s).tens, (target : Int),
            (leftCanonicalize O (target - 1) s).canoTypes⟩ : MPSState T).tens.length
              = s.tens.length := hT1
        rw [if_neg (by rw [hlen2]; omega), if_pos h0]
        rw [leftCanonicalize_no_op]
        · intro i hi
          show ((leftCanonicalize O (target - 1) s).canoTypes.getD i
              MPSTenCanoType.NONE) = MPSTenCanoType.LEFT
          rw [List.getD_eq_getElem?_getD, hA1 i hi]
          rfl
    · -- both passes run
      obtain ⟨hA2, hB2, hT2, hC2⟩ := rightCanonicalize_spec O (target + 1)
        (leftCanonicalize O (target - 1) s) (by omega)
        (by rw [hC1, hT1]; exact hlen) (by rw [hT1]; omega)
      have hX : centralize O target s
          = ⟨(rightCanonicalize O (target + 1)
                (leftCanonicalize O (target - 1) s)).tens, (target : Int),
             (rightCanonicalize O (target + 1)
                (leftCanonicalize O (target - 1) s)).canoTypes⟩ := by
        rw [centralize_def, if_pos (by omega), if_pos h0]
      rw [hX]
      have hleft : ∀ j, j < target →
          (rightCanonicalize O (target + 1)
            (leftCanonicalize O (target - 1) s)).canoTypes[j]?
          = some MPSTenCanoType.LEFT := by
        intro j hj
        rw [hB2 j (by omega)]
        exact hA1 j (by omega)
      have hright : ∀ j, target < j → j < s.tens.length →
          (rightCanonicalize O (target + 1)
            (leftCanonicalize O (target - 1) s)).canoTypes[j]?
          = some MPSTenCanoType.RIGHT := by
        intro j hj1 hj2
        exact hA2 j (by omega) (by rw [hT1]; omega)
      refine ⟨rfl, hleft, hright, ?_⟩
      rw [centralize_def]
      have hlen2 : (⟨(rightCanonicalize O (target + 1)
            (leftCanonicalize O (target - 1) s)).tens, (target : Int),
          (rightCanonicalize O (target + 1)
            (leftCanonicalize O (target - 1) s)).canoTypes⟩ : MPSState T).tens.length
            = s.tens.length := hT2.trans hT1
      rw [if_pos (by rw [hlen2]; omega), if_pos h0]
      rw [leftCanonicalize_no_op]
      · rw [rightCanonicalize_no_op]
        · intro i hi1 hi2
          show ((rightCanonicalize O (target + 1)
              (leftCanonicalize O (target - 1) s)).canoTypes.getD i
              MPSTenCanoType.NONE) = MPSTenCanoType.RIGHT
          rw [List.getD_eq_getElem?_getD,
            hright i (by omega) (by rw [hlen2] at hi2; omega)]
          rfl
      · intro i hi
        show ((rightCanonicalize O (target + 1)
            (leftCanonicalize O (target - 1) s)).canoTypes.getD i
            MPSTenCanoType.NONE) = MPSTenCanoType.LEFT
        rw [List.getD_eq_getElem?_getD, hleft i (by omega)]
        rfl

/-- Concrete tensor operations for the `Centralize` witness. -/
def canoOpsW : CanoTenOps Nat Int :=
  ⟨fun t _ _ => (t + 1, t + 2, t + 3), fun a b _ _ => a + b,
   fun t => (t : Int), fun a b => a - b⟩

/-- Concrete three-site MPS state for the `Centralize` witness. -/
def mpsW : MPSState Nat :=
  ⟨[10, 20, 30], -1,
   [MPSTenCanoType.NONE, MPSTenCanoType.NONE, MPSTenCanoType.NONE]⟩

theorem claim_C8_witness :
    (centralize canoOpsW 1 mpsW).center = ((1 : Nat) : Int) ∧
    (centralize canoOpsW 1 mpsW).canoTypes[0]? = some MPSTenCanoType.LEFT ∧
    (centralize canoOpsW 1 mpsW).canoTypes[2]? = some MPSTenCanoType.RIGHT ∧
    centralize canoOpsW 1 (centralize canoOpsW 1 mpsW)
      = centralize canoOpsW 1 mpsW := by
  have h := claim_C8_centralize_idempotent canoOpsW mpsW 1 rfl (by decide)
  exact ⟨h.1, h.2.1 0 (by decide), h.2.2.1 2 (by decide) (by decide), h.2.2.2⟩

/-! ### Lanczos solver (lanczos_dmrg_solver_impl.h, lines 44-174) -/

/-- `LanczosParams` (algorithm/lanczos_solver.h): energy tolerance and the
Krylov dimension cap. Scalars are embedded as `Rat`. -/
structure LanczosParams where
  error : Rat
  maxIterations : Nat

/-- `LanczosRes`: iteration count, ground-state energy and ground-state vector. -/
structure LanczosRes (V : Type) where
  iters : Nat
  gs_eng : Rat
  gs_vec : V
deriving DecidableEq

/-- An effective-Hamiltonian term group: a list of 4-tuples of tensors. -/
abbrev EffHamTermGroup (V : Type) := List (V × V × V × V)

/-- Abstract tensor primitives consumed by `LanczosSolver`: tensor size
(`GQTensor::size`, the total element count), in-place normalization returning
the norm, the full-axis energy contraction `Real(Contract(w, Dag(b)))`,
`LinearCombine` with one or two update vectors (`y + c₁x₁ [+ c₂x₂]`), the final
basis recombination `LinearCombine(n, coefs, bases, 0.0, out)`, `std::sqrt`,
and `TridiagGsSolver` in eigenvalue-only (`'N'`) and eigenvector (`'V'`) mode. -/
structure LanczTenOps (V : Type) where
  size : V → Nat
  normalize : V → V × Rat
  inner : V → V → Rat
  axpy1 : Rat → V → V → V
  axpy2 : Rat → V → Rat → V → V → V
  lincomb : List Rat → List V → V
  qsqrt : Rat → Rat
  tridiagVal : List Rat → List Rat → Nat → Rat
  tridiagVec : List Rat → List Rat → Nat → Rat × List Rat

/-- Embedding of the Lanczos iteration loop (lanczos_dmrg_solver_impl.h, lines
96-173). One call is one iteration with counter `m = m0 + 1`: form the residual
`γ = w − a[m-1]·bases[m-1] − sqrt(N[m-1])·bases[m-2]` (the last term absent when
`m = 1`), normalize it; on zero norm return via the breakdown path (iters `m`,
energy unchanged; for `m = 1` a copy of `bases[0]`, otherwise the recombination
of the `m × m` tridiagonal ground state); otherwise store `N[m]`, `b[m-1]`,
`bases[m]`, apply the Hamiltonian, store `a[m]`, solve the `(m+1) × (m+1)`
tridiagonal for the eigenvalue `E_new` and stop when
`E − E_new < error ∨ m = eff_ham_eff_dim ∨ m = max_iterations − 1`, solving once
more for the eigenvector and recombining. The arrays `a`, `b`, `N` are the
preallocated `max_iterations`-sized vectors (`List.set` drops writes past the
end, as the store is out of bounds in the C++ source); `bases` grows by
appending and `log` records the index of every `bases[m] = γ` store, so an
entry `≥ max_iterations` is an out-of-bounds store of the C++ basis array.
`fuel` bounds the recursion; `none` means the fuel ran out. -/
def lanczosLoop {V : Type} [Inhabited V] (O : LanczTenOps V) (hmul : V → V)
    (p : LanczosParams) (effDim : Nat) :
    Nat → Nat → List V → List Rat → List Rat → List Rat → Rat → V → List Nat →
    Option (LanczosRes V × List Nat)
  | 0, _, _, _, _, _, _, _, _ => none
  | fuel + 1, m0, bases, a, b, nn, energy0, w, log =>
    let m := m0 + 1
    let gammaPre :=
      if m = 1 then
        O.axpy1 (-(a.getD (m - 1) 0)) (bases.getD (m - 1) default) w
      else
        O.axpy2 (-(a.getD (m - 1) 0)) (bases.getD (m - 1) default)
          (-(O.qsqrt (nn.getD (m - 1) 0))) (bases.getD (m - 2) default) w
    let ng := O.normalize gammaPre
    if ng.2 = 0 then
      if m = 1 then
        some (⟨m, energy0, bases.getD 0 default⟩, log)
      else
        let ev := O.tridiagVec a b m
        some (⟨m, energy0, O.lincomb (ev.2.take m) (bases.take m)⟩, log)
    else
      let nn1 := nn.set m (ng.2 * ng.2)
      let b1 := b.set (m - 1) ng.2
      let bases1 := bases ++ [ng.1]
      let log1 := log ++ [m]
      let w1 := hmul ng.1
      let am := O.inner w1 ng.1
      let a1 := a.set m am
      let enew := O.tridiagVal a1 b1 (m + 1)
      if energy0 - enew < p.error ∨ m = effDim ∨ m = p.maxIterations - 1 then
        let ev := O.tridiagVec a1 b1 (m + 1)
        some (⟨m + 1, enew,
          O.lincomb (ev.2.take (m + 1)) (bases1.take (m + 1))⟩, log1)
      else
        lanczosLoop O hmul p effDim fuel m bases1 a1 b1 nn1 enew w1 log1

/-- Embedding of `LanczosSolver` (lanczos_dmrg_solver_impl.h, lines 44-95):
normalize the initial state into `bases[0]`, apply the Hamiltonian once,
compute `a[0]` and enter the iteration loop with `E = a[0]`. The fuel
`effDim + max_iterations + 2` is enough for every terminating run. -/
def LanczosSolver {V : Type} [Inhabited V] (O : LanczTenOps V)
    (effHam : EffHamTermGroup V)
    (effHamMulState : EffHamTermGroup V → V → V)
    (p : LanczosParams) (initState : V) : Option (LanczosRes V × List Nat) :=
  let effHamEffDim := O.size initState
  let ng := O.normalize initState
  let w0 := effHamMulState effHam ng.1
  let a0 := O.inner w0 ng.1
  let aArr := (List.replicate p.maxIterations (0 : Rat)).set 0 a0
  let bArr := List.replicate p.maxIterations (0 : Rat)
  let nArr := (List.replicate p.maxIterations (0 : Rat)).set 0 0
  lanczosLoop O (fun v => effHamMulState effHam v) p effHamEffDim
    (effHamEffDim + p.maxIterations + 2) 0 [ng.1] aArr bArr nArr a0 w0 [0]

/-- The Lanczos loop state entering the stop test of an iteration: counter,
Krylov basis, the `a`, `b`, `N` arrays, the previous and current Rayleigh-Ritz
estimates, and the last matrix-vector product. -/
structure LancTrace (V : Type) where
  mT : Nat
  basesT : List V
  aT : List Rat
  bT : List Rat
  nT : List Rat
  eprevT : Rat
  ecurT : Rat
  wT : V

/-- One non-breakdown Lanczos iteration as a pure state transformer (the
claim-side reading of the loop body of lines 96-173). -/
def lancStep {V : Type} [Inhabited V] (O : LanczTenOps V) (hmul : V → V)
    (S : LancTrace V) : LancTrace V :=
  let m := S.mT + 1
  let gammaPre :=
    if m = 1 then
      O.axpy1 (-(S.aT.getD (m - 1) 0)) (S.basesT.getD (m - 1) default) S.wT
    else
      O.axpy2 (-(S.aT.getD (m - 1) 0)) (S.basesT.getD (m - 1) default)
        (-(O.qsqrt (S.nT.getD (m - 1) 0))) (S.basesT.getD (m - 2) default) S.wT
  let ng := O.normalize gammaPre
  let a1 := S.aT.set m (O.inner (hmul ng.1) ng.1)
  let b1 := S.bT.set (m - 1) ng.2
  ⟨m, S.basesT ++ [ng.1], a1, b1, S.nT.set m (ng.2 * ng.2),
   S.ecurT, O.tridiagVal a1 b1 (m + 1), hmul ng.1⟩

/-- The state of the solver before the first iteration (lines 69-94). -/
def lancInit {V : Type} [Inhabited V] (O : LanczTenOps V)
    (effHam : EffHamTermGroup V) (effHamMulState : EffHamTermGroup V → V → V)
    (p : LanczosParams) (initState : V) : LancTrace V :=
  let ng := O.normalize initState
  let w0 := effHamMulState effHam ng.1
  let a0 := O.inner w0 ng.1
  ⟨0, [ng.1], (List.replicate p.maxIterations (0 : Rat)).set 0 a0,
   List.replicate p.maxIterations (0 : Rat),
   (List.replicate p.maxIterations (0 : Rat)).set 0 0,
   a0, a0, w0⟩

/-- The loop state entering the stop test of iteration `k`. -/
def lancTraceAt {V : Type} [Inhabited V] (O : LanczTenOps V)
    (effHam : EffHamTermGroup V) (effHamMulState : EffHamTermGroup V → V → V)
    (p : LanczosParams) (initState : V) (k : Nat) : LancTrace V :=
  (lancStep O (fun v => effHamMulState effHam v))^[k]
    (lancInit O effHam effHamMulState p initState)

/-- The stop test of iteration `S.mT` (line 156-160):
`E − E_new < error ∨ m = eff_ham_eff_dim ∨ m = max_iterations − 1`. -/
def lancStop (p : LanczosParams) (effDim : Nat) {V : Type}
    (S : LancTrace V) : Prop :=
  S.eprevT - S.ecurT < p.error ∨ S.mT = effDim ∨ S.mT = p.maxIterations - 1

instance (p : LanczosParams) (effDim : Nat) {V : Type} (S : LancTrace V) :
    Decidable (lancStop p effDim S) := by
  unfold lancStop
  infer_instance

/-- The result assembled on convergence at state `S` (lines 161-169): one more
`(m+1) × (m+1)` eigenvector solve, `gs_vec = Σ_j c_j b_j` over the `m+1`
retained basis vectors, `gs_eng = E_new`, `iters = m + 1`. -/
def lancResOf {V : Type} (O : LanczTenOps V) (S : LancTrace V) : LanczosRes V :=
  ⟨S.mT + 1, S.ecurT,
   O.lincomb ((O.tridiagVec S.aT S.bT (S.mT + 1)).2.take (S.mT + 1))
     (S.basesT.take (S.mT + 1))⟩

theorem lanczosLoop_step {V : Type} [Inhabited V] (O : LanczTenOps V)
    (hmul : V → V) (p : LanczosParams) (effDim : Nat) (fuel : Nat)
    (S : LancTrace V) (log : List Nat)
    (hnb : ∀ v, (O.normalize v).2 ≠ 0) :
    lanczosLoop O hmul p effDim (fuel + 1) S.mT S.basesT S.aT S.bT S.nT
        S.ecurT S.wT log
      = if lancStop p effDim (lancStep O hmul S)
        then some (lancResOf O (lancStep O hmul S), log ++ [S.mT + 1])
        else lanczosLoop O hmul p effDim fuel (lancStep O hmul S).mT
          (lancStep O hmul S).basesT (lancStep O hmul S).aT
          (lancStep O hmul S).bT (lancStep O hmul S).nT
          (lancStep O hmul S).ecurT (lancStep O hmul S).wT
          (log ++ [S.mT + 1]) := by
  simp only [lanczosLoop, lancStep, lancStop, lancResOf]
  rw [if_neg (hnb _)]

theorem lancStep_mT {V : Type} [Inhabited V] (O : LanczTenOps V) (hmul : V → V)
    (S : LancTrace V) : (lancStep O hmul S).mT = S.mT + 1 := rfl

theorem lanczosLoop_find {V : Type} [Inhabited V] (O : LanczTenOps V)
    (hmul : V → V) (p : LanczosParams) (effDim : Nat)
    (hnb : ∀ v, (O.normalize v).2 ≠ 0) :
    ∀ (fuel : Nat) (S : LancTrace V) (log : List Nat) (ks : Nat),
      S.mT < ks → ks ≤ S.mT + fuel →
      (∀ i, S.mT < i → i < ks →
        ¬ lancStop p effDim ((lancStep O hmul)^[i - S.mT] S)) →
      lancStop p effDim ((lancStep O hmul)^[ks - S.mT] S) →
      lanczosLoop O hmul p effDim fuel S.mT S.basesT S.aT S.bT S.nT
          S.ecurT S.wT log
        = some (lancResOf O ((lancStep O hmul)^[ks - S.mT] S),
            log ++ List.range' (S.mT + 1) (ks - S.mT)) := by
  intro fuel
  induction fuel with
  | zero => intro S log ks h1 h2 _ _; omega
  | succ fuel ih =>
    intro S log ks h1 h2 hmin hstop
    rw [lanczosLoop_step O hmul p effDim fuel S log hnb]
    by_cases hks : ks = S.mT + 1
    · subst hks
      have hone : (lancStep O hmul)^[S.mT + 1 - S.mT] S = lancStep O hmul S := by
        rw [show S.mT + 1 - S.mT = 1 from by omega, Function.iterate_one]
      rw [hone] at hstop
      rw [if_pos hstop, hone]
      rw [show S.mT + 1 - S.mT = 1 from by omega]
      rfl
    · have hlt : S.mT + 1 < ks := by omega
      have hnstop : ¬ lancStop p effDim (lancStep O hmul S) := by
        have h := hmin (S.mT + 1) (by omega) hlt
        rwa [show S.mT + 1 - S.mT = 1 from by omega, Function.iterate_one] at h
      rw [if_neg hnstop]
      have hrun := ih (lancStep O hmul S) (log ++ [S.mT + 1]) ks
        (by rw [lancStep_mT]; omega)
        (by rw [lancStep_mT]; omega)
        (by
          intro i hi1 hi2
          rw [lancStep_mT] at hi1
          rw [lancStep_mT, ← Function.iterate_succ_apply,
            show (i - (S.mT + 1)).succ = i - S.mT from by omega]
          exact hmin i (by omega) hi2)
        (by
          rw [lancStep_mT, ← Function.iterate_succ_apply,
            show (ks - (S.mT + 1)).succ = ks - S.mT from by omega]
          exact hstop)
      rw [hrun, lancStep_mT, ← Function.iterate_succ_apply,
        show (ks - (S.mT + 1)).succ = ks - S.mT from by omega,
        List.append_assoc, List.singleton_append,
        show ks - S.mT = (ks - (S.mT + 1)) + 1 from by omega,
        List.range'_succ]

theorem lancTraceAt_mT {V : Type} [Inhabited V] (O : LanczTenOps V)
    (effHam : EffHamTermGroup V) (cb : EffHamTermGroup V → V → V)
    (p : LanczosParams) (init : V) :
    ∀ k, (lancTraceAt O effHam cb p init k).mT = k := by
  intro k
  induction k with
  | zero => rfl
  | succ k ih =>
    unfold lancTraceAt at ih ⊢
    rw [Function.iterate_succ_apply', lancStep_mT, ih]

theorem lancStep_basesT_length {V : Type} [Inhabited V] (O : LanczTenOps V)
    (hmul : V → V) (S : LancTrace V) :
    (lancStep O hmul S).basesT.length = S.basesT.length + 1 := by
  show (S.basesT ++ _).length = S.basesT.length + 1
  rw [List.length_append]
  rfl

theorem lancTraceAt_basesT_length {V : Type} [Inhabited V] (O : LanczTenOps V)
    (effHam : EffHamTermGroup V) (cb : EffHamTermGroup V → V → V)
    (p : LanczosParams) (init : V) :
    ∀ k, (lancTraceAt O effHam cb p init k).basesT.length = k + 1 := by
  intro k
  induction k with
  | zero => rfl
  | succ k ih =>
    unfold lancTraceAt at ih ⊢
    rw [Function.iterate_succ_apply', lancStep_basesT_length, ih]

/-- Claim C1: on a run without Lanczos breakdown (the oracle norm is never
zero), the solver stops exactly at the first iteration `ks` satisfying the
one-sided test `E − E_new < error`, or `ks = dim(v₀)` (the element count of the
initial state), or `ks = max_iterations − 1`; it then solves the
`(ks+1) × (ks+1)` tridiagonal problem once more for the eigenvector and returns
`iters = ks + 1`, `gs_eng = E_new` and `gs_vec = Σ_j c_j b_j` over the `ks + 1`
retained Krylov basis vectors. -/
theorem claim_C1_lanczos_convergence {V : Type} [Inhabited V]
    (O : LanczTenOps V) (effHam : EffHamTermGroup V)
    (cb : EffHamTermGroup V → V → V) (p : LanczosParams) (init : V)
    (hnb : ∀ v, (O.normalize v).2 ≠ 0)
    (hdim : 1 ≤ O.size init)
    (ks : Nat) (hks : 1 ≤ ks)
    (hstop : lancStop p (O.size init) (lancTraceAt O effHam cb p init ks))
    (hmin : ∀ i, 1 ≤ i → i < ks →
      ¬ lancStop p (O.size init) (lancTraceAt O effHam cb p init i)) :
    ∃ log, LanczosSolver O effHam cb p init
      = some (⟨ks + 1, (lancTraceAt O effHam cb p init ks).ecurT,
          O.lincomb
            ((O.tridiagVec (lancTraceAt O effHam cb p init ks).aT
                (lancTraceAt O effHam cb p init ks).bT (ks + 1)).2.take (ks + 1))
            ((lancTraceAt O effHam cb p init ks).basesT.take (ks + 1))⟩, log) ∧
      (lancTraceAt O effHam cb p init ks).basesT.length = ks + 1 := by
  have hksle : ks ≤ O.size init := by
    by_contra hcon
    push_neg at hcon
    have hstopD : lancStop p (O.size init)
        (lancTraceAt O effHam cb p init (O.size init)) :=
      Or.inr (Or.inl (lancTraceAt_mT O effHam cb p init (O.size init)))
    exact hmin (O.size init) hdim hcon hstopD
  have hm0 : (lancInit O effHam cb p init).mT = 0 := rfl
  have hrun := lanczosLoop_find O (fun v => cb effHam v) p
    (O.size init) hnb (O.size init + p.maxIterations + 2)
    (lancInit O effHam cb p init) [0] ks
    (by rw [hm0]; omega)
    (by rw [hm0]; omega)
    (by
      intro i hi1 hi2
      rw [hm0] at hi1
      rw [hm0, Nat.sub_zero]
      exact hmin i (by omega) hi2)
    (by
      rw [hm0, Nat.sub_zero]
      exact hstop)
  rw [hm0, Nat.sub_zero] at hrun
  have hres : lancResOf O (lancTraceAt O effHam cb p init ks)
      = ⟨ks + 1, (lancTraceAt O effHam cb p init ks).ecurT,
          O.lincomb
            ((O.tridiagVec (lancTraceAt O effHam cb p init ks).aT
                (lancTraceAt O effHam cb p init ks).bT (ks + 1)).2.take (ks + 1))
            ((lancTraceAt O effHam cb p init ks).basesT.take (ks + 1))⟩ := by
    unfold lancResOf
    rw [lancTraceAt_mT]
  refine ⟨[0] ++ List.range' ((lancInit O effHam cb p init).mT + 1)
    (ks - (lancInit O effHam cb p init).mT), ?_,
    lancTraceAt_basesT_length O effHam cb p init ks⟩
  have hsolver : LanczosSolver O effHam cb p init
      = lanczosLoop O (fun v => cb effHam v) p (O.size init)
          (O.size init + p.maxIterations + 2)
          (lancInit O effHam cb p init).mT
          (lancInit O effHam cb p init).basesT
          (lancInit O effHam cb p init).aT
          (lancInit O effHam cb p init).bT
          (lancInit O effHam cb p init).nT
          (lancInit O effHam cb p init).ecurT
          (lancInit O effHam cb p init).wT [0] := rfl
  rw [hm0] at hsolver
  rw [hsolver, hrun]
  rw [hm0, Nat.sub_zero]
  show some (lancResOf O (lancTraceAt O effHam cb p init ks), _) = _
  rw [hres]

/-- Concrete oracle operations for the Lanczos convergence witness. -/
def lanczOpsW : LanczTenOps Rat :=
  ⟨fun _ => 1, fun v => (v, 1), fun _ _ => 0,
   fun c x y => y + c * x, fun c1 x1 c2 x2 y => y + c1 * x1 + c2 * x2,
   fun _ _ => 0, fun q => q, fun _ _ _ => 0,
   fun _ _ n => (0, List.replicate n 1)⟩

theorem claim_C1_witness :
    (∀ v, (lanczOpsW.normalize v).2 ≠ 0) ∧
    1 ≤ lanczOpsW.size (1 : Rat) ∧
    lancStop ⟨1, 5⟩ (lanczOpsW.size (1 : Rat))
      (lancTraceAt lanczOpsW [] (fun _ v => v) ⟨1, 5⟩ (1 : Rat) 1) ∧
    (∃ log, LanczosSolver lanczOpsW [] (fun _ v => v) ⟨1, 5⟩ (1 : Rat)
      = some (⟨1 + 1,
          (lancTraceAt lanczOpsW [] (fun _ v => v) ⟨1, 5⟩ (1 : Rat) 1).ecurT,
          lanczOpsW.lincomb
            ((lanczOpsW.tridiagVec
                (lancTraceAt lanczOpsW [] (fun _ v => v) ⟨1, 5⟩ (1 : Rat) 1).aT
                (lancTraceAt lanczOpsW [] (fun _ v => v) ⟨1, 5⟩ (1 : Rat) 1).bT
                (1 + 1)).2.take (1 + 1))
            ((lancTraceAt lanczOpsW [] (fun _ v => v) ⟨1, 5⟩
                (1 : Rat) 1).basesT.take (1 + 1))⟩, log) ∧
      (lancTraceAt lanczOpsW [] (fun _ v => v) ⟨1, 5⟩
          (1 : Rat) 1).basesT.length = 1 + 1) := by
  have hstop : lancStop ⟨1, 5⟩ (lanczOpsW.size (1 : Rat))
      (lancTraceAt lanczOpsW [] (fun _ v => v) ⟨1, 5⟩ (1 : Rat) 1) :=
    Or.inr (Or.inl (by
      rw [lancTraceAt_mT]
      rfl))
  refine ⟨fun v => one_ne_zero, le_refl 1, hstop, ?_⟩
  exact claim_C1_lanczos_convergence lanczOpsW [] (fun _ v => v) ⟨1, 5⟩ 1
    (fun v => one_ne_zero) (le_refl 1) 1 (le_refl 1) hstop
    (fun i h1 h2 => absurd (Nat.lt_of_lt_of_le h2 h1) (Nat.lt_irrefl i))

theorem lancIter_mT {V : Type} [Inhabited V] (O : LanczTenOps V) (hmul : V → V)
    (S : LancTrace V) : ∀ k, ((lancStep O hmul)^[k] S).mT = S.mT + k := by
  intro k
  induction k with
  | zero => rfl
  | succ k ih =>
    rw [Function.iterate_succ_apply', lancStep_mT, ih]
    omega

theorem lanczosLoop_succ_shape {V : Type} [Inhabited V] (O : LanczTenOps V)
    (hmul : V → V) (p : LanczosParams) (effDim : Nat) (fuel m0 : Nat)
    (bases : List V) (a b nn : List Rat) (e0 : Rat) (w : V) (log : List Nat) :
    (∃ v, lanczosLoop O hmul p effDim (fuel + 1) m0 bases a b nn e0 w log
        = some (⟨m0 + 1, e0, v⟩, log)) ∨
    (∃ en v, lanczosLoop O hmul p effDim (fuel + 1) m0 bases a b nn e0 w log
        = some (⟨m0 + 2, en, v⟩, log ++ [m0 + 1])) ∨
    (m0 + 1 ≠ p.maxIterations - 1 ∧
      ∃ bases1 a1 b1 nn1 e1 w1,
        lanczosLoop O hmul p effDim (fuel + 1) m0 bases a b nn e0 w log
          = lanczosLoop O hmul p effDim fuel (m0 + 1) bases1 a1 b1 nn1 e1 w1
              (log ++ [m0 + 1])) := by
  simp only [lanczosLoop]
  repeat' split
  all_goals
    first
      | exact Or.inl ⟨_, rfl⟩
      | exact Or.inr (Or.inl ⟨_, _, rfl⟩)
      | (rename_i h
         exact Or.inr (Or.inr
           ⟨fun hq => h (Or.inr (Or.inr hq)), _, _, _, _, _, _, rfl⟩))

theorem lanczosLoop_bounds {V : Type} [Inhabited V] (O : LanczTenOps V)
    (hmul : V → V) (p : LanczosParams) (effDim : Nat)
    (hmax : 2 ≤ p.maxIterations) :
    ∀ (fuel m0 : Nat) (bases : List V) (a b nn : List Rat) (e0 : Rat) (w : V)
      (log : List Nat),
      m0 ≤ p.maxIterations - 2 →
      p.maxIterations ≤ m0 + fuel + 1 →
      (∀ x ∈ log, x < p.maxIterations) →
      ∃ res log2,
        lanczosLoop O hmul p effDim fuel m0 bases a b nn e0 w log
          = some (res, log2) ∧
        res.iters ≤ p.maxIterations ∧
        ∀ x ∈ log2, x < p.maxIterations := by
  intro fuel
  induction fuel with
  | zero => intro m0 bases a b nn e0 w log hm hf hl; omega
  | succ fuel ih =>
    intro m0 bases a b nn e0 w log hm hf hl
    rcases lanczosLoop_succ_shape O hmul p effDim fuel m0 bases a b nn e0 w log
      with ⟨v, hv⟩ | ⟨en, v, hv⟩ | ⟨hneq, bases1, a1, b1, nn1, e1, w1, hv⟩
    · refine ⟨_, log, hv, ?_, hl⟩
      show m0 + 1 ≤ p.maxIterations
      omega
    · refine ⟨_, log ++ [m0 + 1], hv, ?_, ?_⟩
      · show m0 + 2 ≤ p.maxIterations
        omega
      · intro x hx
        rcases List.mem_append.mp hx with h | h
        · exact hl x h
        · simp only [List.mem_singleton] at h
          omega
    · rw [hv]
      exact ih (m0 + 1) _ _ _ _ _ _ (log ++ [m0 + 1]) (by omega) (by omega)
        (by
          intro x hx
          rcases List.mem_append.mp hx with h | h
          · exact hl x h
          · simp only [List.mem_singleton] at h
            omega)

/-- Claim C6, amended: when `max_iterations ≥ 2`, the Lanczos iteration
terminates, the reported `iters` never exceeds `max_iterations`, and every
Krylov-basis store happens at an index `< max_iterations`, so the preallocated
basis array of size `max_iterations` is never overrun. (As stated, with
`max_iterations ≥ 1`, the claim is false: see the counterexample at
`max_iterations = 1`.) -/
theorem claim_C6_lanczos_bounds {V : Type} [Inhabited V] (O : LanczTenOps V)
    (effHam : EffHamTermGroup V) (cb : EffHamTermGroup V → V → V)
    (p : LanczosParams) (init : V) (hmax : 2 ≤ p.maxIterations) :
    ∃ res log, LanczosSolver O effHam cb p init = some (res, log) ∧
      res.iters ≤ p.maxIterations ∧ ∀ x ∈ log, x < p.maxIterations := by
  have hsolver : LanczosSolver O effHam cb p init
      = lanczosLoop O (fun v => cb effHam v) p (O.size init)
          (O.size init + p.maxIterations + 2) 0
          (lancInit O effHam cb p init).basesT
          (lancInit O effHam cb p init).aT
          (lancInit O effHam cb p init).bT
          (lancInit O effHam cb p init).nT
          (lancInit O effHam cb p init).ecurT
          (lancInit O effHam cb p init).wT [0] := rfl
  rw [hsolver]
  refine lanczosLoop_bounds O (fun v => cb effHam v) p (O.size init) hmax
    (O.size init + p.maxIterations + 2) 0 _ _ _ _ _ _ [0]
    (by omega) (by omega) ?_
  intro x hx
  simp only [List.mem_singleton] at hx
  omega

/-- Concrete oracle operations for the Lanczos bounds witness. -/
def lanczOpsBnd : LanczTenOps Rat :=
  ⟨fun _ => 2, fun v => (v, 1), fun _ _ => 0,
   fun _ _ _ => 0, fun _ _ _ _ _ => 0, fun _ _ => 0, fun q => q,
   fun _ _ _ => 0, fun _ _ _ => (0, [])⟩

theorem claim_C6_witness :
    (2 : Nat) ≤ (⟨0, 2⟩ : LanczosParams).maxIterations ∧
    ∃ res log,
      LanczosSolver lanczOpsBnd [] (fun _ v => v) ⟨0, 2⟩ (1 : Rat)
        = some (res, log) ∧
      res.iters ≤ (⟨0, 2⟩ : LanczosParams).maxIterations ∧
      ∀ x ∈ log, x < (⟨0, 2⟩ : LanczosParams).maxIterations :=
  ⟨le_refl 2,
   claim_C6_lanczos_bounds lanczOpsBnd [] (fun _ v => v) ⟨0, 2⟩ 1 (le_refl 2)⟩

/-- Concrete oracle operations for the `max_iterations = 1` counterexample. -/
def lanczOpsCE : LanczTenOps Rat :=
  ⟨fun _ => 2, fun v => (v, 1), fun _ _ => 0,
   fun _ _ _ => 0, fun _ _ _ _ _ => 0, fun _ _ => 0, fun q => q,
   fun _ _ _ => 0, fun _ _ _ => (0, [])⟩

/-- Claim C6 counterexample: with `max_iterations = 1` (a two-element initial
state, no breakdown, no energy convergence) the solver reports
`iters = 3 > max_iterations` and stores a Krylov basis vector at index
`1 ≥ max_iterations`, overrunning the preallocated size-1 basis array; so the
claim as stated for every `max_iterations ≥ 1` is false. -/
theorem claim_C6_counterexample :
    (1 : Nat) ≤ (⟨0, 1⟩ : LanczosParams).maxIterations ∧
    ∃ res log,
      LanczosSolver lanczOpsCE [] (fun _ v => v) ⟨0, 1⟩ (1 : Rat)
        = some (res, log) ∧
      (⟨0, 1⟩ : LanczosParams).maxIterations < res.iters ∧
      1 ∈ log := by
  refine ⟨le_refl 1, ?_⟩
  have hnb : ∀ v, (lanczOpsCE.normalize v).2 ≠ 0 := fun _ => one_ne_zero
  have hm0 : (lancInit lanczOpsCE [] (fun _ v => v) ⟨0, 1⟩ (1 : Rat)).mT = 0 := rfl
  have hrun := lanczosLoop_find lanczOpsCE (fun v => v) ⟨0, 1⟩ 2 hnb
    (2 + 1 + 2) (lancInit lanczOpsCE [] (fun _ v => v) ⟨0, 1⟩ (1 : Rat)) [0] 2
    (by rw [hm0]; omega)
    (by rw [hm0]; omega)
    (by
      intro i hi1 hi2
      rw [hm0] at hi1
      have hi : i = 1 := by omega
      subst hi
      rw [hm0, Nat.sub_zero]
      intro hcon
      rcases hcon with h | h | h
      · have he1 : ((lancStep lanczOpsCE (fun v => v))^[1]
            (lancInit lanczOpsCE [] (fun _ v => v) ⟨0, 1⟩ (1 : Rat))).eprevT
            = 0 := rfl
        have he2 : ((lancStep lanczOpsCE (fun v => v))^[1]
            (lancInit lanczOpsCE [] (fun _ v => v) ⟨0, 1⟩ (1 : Rat))).ecurT
            = 0 := rfl
        rw [he1, he2] at h
        simp at h
      · rw [lancIter_mT, hm0] at h
        simp at h
      · rw [lancIter_mT, hm0] at h
        simp at h)
    (by
      rw [hm0, Nat.sub_zero]
      exact Or.inr (Or.inl (by rw [lancIter_mT, hm0])))
  rw [hm0, Nat.sub_zero] at hrun
  have hsolver : LanczosSolver lanczOpsCE [] (fun _ v => v) ⟨0, 1⟩ (1 : Rat)
      = lanczosLoop lanczOpsCE (fun v => v) ⟨0, 1⟩ 2 (2 + 1 + 2)
          (lancInit lanczOpsCE [] (fun _ v => v) ⟨0, 1⟩ (1 : Rat)).mT
          (lancInit lanczOpsCE [] (fun _ v => v) ⟨0, 1⟩ (1 : Rat)).basesT
          (lancInit lanczOpsCE [] (fun _ v => v) ⟨0, 1⟩ (1 : Rat)).aT
          (lancInit lanczOpsCE [] (fun _ v => v) ⟨0, 1⟩ (1 : Rat)).bT
          (lancInit lanczOpsCE [] (fun _ v => v) ⟨0, 1⟩ (1 : Rat)).nT
          (lancInit lanczOpsCE [] (fun _ v => v) ⟨0, 1⟩ (1 : Rat)).ecurT
          (lancInit lanczOpsCE [] (fun _ v => v) ⟨0, 1⟩ (1 : Rat)).wT [0] := rfl
  rw [hm0] at hsolver
  refine ⟨lancResOf lanczOpsCE ((lancStep lanczOpsCE (fun v => v))^[2]
      (lancInit lanczOpsCE [] (fun _ v => v) ⟨0, 1⟩ (1 : Rat))),
    [0] ++ List.range' 1 2, ?_, ?_, by decide⟩
  · rw [hsolver, hrun]
  · show (⟨0, 1⟩ : LanczosParams).maxIterations
        < ((lancStep lanczOpsCE (fun v => v))^[2]
            (lancInit lanczOpsCE [] (fun _ v => v) ⟨0, 1⟩ (1 : Rat))).mT + 1
    rw [lancIter_mT, hm0]
    norm_num

theorem replicate_set_getD (n : Nat) (x : Rat) (hn : 1 ≤ n) :
    ((List.replicate n (0 : Rat)).set 0 x).getD 0 0 = x := by
  obtain ⟨k, hk⟩ : ∃ k, n = k + 1 := ⟨n - 1, by omega⟩
  rw [hk, List.replicate_succ]
  rfl

theorem lanczosLoop_breakdown_one {V : Type} [Inhabited V] (O : LanczTenOps V)
    (hmul : V → V) (p : LanczosParams) (effDim fuel : Nat) (bases : List V)
    (a b nn : List Rat) (e0 : Rat) (w : V) (log : List Nat)
    (hbd : (O.normalize (O.axpy1 (-(a.getD (0 + 1 - 1) 0))
        (bases.getD (0 + 1 - 1) default) w)).2 = 0) :
    lanczosLoop O hmul p effDim (fuel + 1) 0 bases a b nn e0 w log
      = some (⟨1, e0, bases.getD 0 default⟩, log) := by
  simp only [lanczosLoop]
  rw [if_pos (trivial : True), if_pos (trivial : True), if_pos hbd]

theorem lanczosLoop_breakdown_gt {V : Type} [Inhabited V] (O : LanczTenOps V)
    (hmul : V → V) (p : LanczosParams) (effDim fuel m0 : Nat) (bases : List V)
    (a b nn : List Rat) (e0 : Rat) (w : V) (log : List Nat) (hm : 1 ≤ m0)
    (hbd : (O.normalize (O.axpy2 (-(a.getD (m0 + 1 - 1) 0))
        (bases.getD (m0 + 1 - 1) default)
        (-(O.qsqrt (nn.getD (m0 + 1 - 1) 0)))
        (bases.getD (m0 + 1 - 2) default) w)).2 = 0) :
    lanczosLoop O hmul p effDim (fuel + 1) m0 bases a b nn e0 w log
      = some (⟨m0 + 1, e0,
          O.lincomb ((O.tridiagVec a b (m0 + 1)).2.take (m0 + 1))
            (bases.take (m0 + 1))⟩, log) := by
  simp only [lanczosLoop]
  rw [if_neg (show ¬ (m0 + 1 = 1) from by omega),
    if_neg (show ¬ (m0 + 1 = 1) from by omega), if_pos hbd]

/-- Claim C4: on a zero-norm residual at the first iteration (`m = 1`) the
solver returns immediately with `iters = 1`, `gs_eng = α₀ = ⟨v₀|H v₀⟩` (the
eigenvalue when the normalized initial state is an exact eigenvector) and
`gs_vec` a copy of the normalized initial state; on a breakdown at `m > 1` the
`m × m` tridiagonal problem is solved for the lowest eigenpair and the first
`m` basis vectors are recombined into `gs_vec`. -/
theorem claim_C4_lanczos_breakdown {V : Type} [Inhabited V] :
    (∀ (O : LanczTenOps V) (effHam : EffHamTermGroup V)
        (cb : EffHamTermGroup V → V → V) (p : LanczosParams) (init : V),
      1 ≤ p.maxIterations →
      (O.normalize (O.axpy1
          (-(O.inner (cb effHam (O.normalize init).1) (O.normalize init).1))
          (O.normalize init).1 (cb effHam (O.normalize init).1))).2 = 0 →
      LanczosSolver O effHam cb p init
        = some (⟨1, O.inner (cb effHam (O.normalize init).1) (O.normalize init).1,
            (O.normalize init).1⟩, [0])) ∧
    (∀ (O : LanczTenOps V) (hmul : V → V) (p : LanczosParams)
        (effDim fuel m0 : Nat) (bases : List V) (a b nn : List Rat) (e0 : Rat)
        (w : V) (log : List Nat),
      1 ≤ m0 →
      (O.normalize (O.axpy2 (-(a.getD (m0 + 1 - 1) 0))
          (bases.getD (m0 + 1 - 1) default)
          (-(O.qsqrt (nn.getD (m0 + 1 - 1) 0)))
          (bases.getD (m0 + 1 - 2) default) w)).2 = 0 →
      lanczosLoop O hmul p effDim (fuel + 1) m0 bases a b nn e0 w log
        = some (⟨m0 + 1, e0,
            O.lincomb ((O.tridiagVec a b (m0 + 1)).2.take (m0 + 1))
              (bases.take (m0 + 1))⟩, log)) := by
  constructor
  · intro O effHam cb p init hmax hbd
    have hget := replicate_set_getD p.maxIterations
      (O.inner (cb effHam (O.normalize init).1) (O.normalize init).1) hmax
    have hsolver : LanczosSolver O effHam cb p init
        = lanczosLoop O (fun v => cb effHam v) p (O.size init)
            (O.size init + p.maxIterations + 2) 0 [(O.normalize init).1]
            ((List.replicate p.maxIterations (0 : Rat)).set 0
              (O.inner (cb effHam (O.normalize init).1) (O.normalize init).1))
            (List.replicate p.maxIterations (0 : Rat))
            ((List.replicate p.maxIterations (0 : Rat)).set 0 0)
            (O.inner (cb effHam (O.normalize init).1) (O.normalize init).1)
            (cb effHam (O.normalize init).1) [0] := rfl
    rw [hsolver,
      show O.size init + p.maxIterations + 2
        = (O.size init + p.maxIterations + 1) + 1 from rfl]
    rw [lanczosLoop_breakdown_one]
    · rfl
    · rw [show (0 + 1 - 1 : Nat) = 0 from rfl, hget]
      exact hbd
  · intro O hmul p effDim fuel m0 bases a b nn e0 w log hm hbd
    exact lanczosLoop_breakdown_gt O hmul p effDim fuel m0 bases a b nn e0 w
      log hm hbd

/-- Concrete oracle operations for the Lanczos breakdown witness: the norm
oracle always reports a zero residual norm. -/
def lanczOpsBk : LanczTenOps Rat :=
  ⟨fun _ => 2, fun v => (v, 0), fun _ _ => 7,
   fun _ _ _ => 0, fun _ _ _ _ _ => 0, fun _ _ => 9, fun q => q,
   fun _ _ _ => 0, fun _ _ n => (0, List.replicate n 1)⟩

theorem claim_C4_witness :
    ((1 : Nat) ≤ (⟨0, 2⟩ : LanczosParams).maxIterations ∧
      LanczosSolver lanczOpsBk [] (fun _ v => v) ⟨0, 2⟩ (1 : Rat)
        = some (⟨1, lanczOpsBk.inner
            ((fun (_ : EffHamTermGroup Rat) v => v) []
              (lanczOpsBk.normalize (1 : Rat)).1)
            (lanczOpsBk.normalize (1 : Rat)).1,
          (lanczOpsBk.normalize (1 : Rat)).1⟩, [0])) ∧
    ((1 : Nat) ≤ 1 ∧
      lanczosLoop lanczOpsBk (fun v => v) ⟨0, 2⟩ 2 (0 + 1) 1
          [(1 : Rat), 1] [0, 0] [0, 0] [0, 0] 5 0 [0, 1]
        = some (⟨1 + 1, 5,
            lanczOpsBk.lincomb
              ((lanczOpsBk.tridiagVec [0, 0] [0, 0] (1 + 1)).2.take (1 + 1))
              (([(1 : Rat), 1]).take (1 + 1))⟩, [0, 1])) := by
  constructor
  · exact ⟨by show (1 : Nat) ≤ 2; omega,
      (claim_C4_lanczos_breakdown.1) lanczOpsBk [] (fun _ v => v) ⟨0, 2⟩ 1
        (by show (1 : Nat) ≤ 2; omega) rfl⟩
  · exact ⟨le_refl 1,
      (claim_C4_lanczos_breakdown.2) lanczOpsBk (fun v => v) ⟨0, 2⟩ 2 0 1
        [(1 : Rat), 1] [0, 0] [0, 0] [0, 0] 5 0 [0, 1] (le_refl 1) rfl⟩

end GqMps2
